import Mathlib

set_option maxHeartbeats 1000000
set_option maxRecDepth 4000

/-!
Verification development for the task-tracker core of `Steven-Machin/todo-list`.

The Python source (`src/app.py`, `src/notifications/*.py`) is shallowly embedded:
pure helper functions become Lean functions on explicit data; Python `dict`
task/user records become structures whose optional keys are `Option`s; the
ambient clock (`datetime.now()` / `date.today()`) becomes an explicit argument;
the JSON file store becomes explicit state passing.  Python `date` objects are
embedded as year/month/day triples (`MDate`), and, where the code only
subtracts dates or walks them day by day, as their proleptic-Gregorian ordinal
(`dToNum`, the embedding of `date.toordinal`).
-/
/-! ### Python string primitives

`str.strip`, `str.lower` and `_norm` (src/app.py:427-428) over the ASCII
strings the repository manipulates.  Strings are handled through their
character lists so that the embedding is elementary. -/
/-- Characters removed by Python `str.strip()` (ASCII whitespace). -/
def isPySpace (c : Char) : Bool :=
  c == ' ' || c == '\t' || c == '\n' || c == '\r' || c == '\x0b' || c == '\x0c'

/-- ASCII `str.lower` on one character. -/
def pyLowerC (c : Char) : Char :=
  if 65 ≤ c.toNat ∧ c.toNat ≤ 90 then Char.ofNat (c.toNat + 32) else c

/-- `str.strip()` on a character list: drop whitespace from both ends. -/
def pyStrip (l : List Char) : List Char :=
  ((l.dropWhile isPySpace).reverse.dropWhile isPySpace).reverse

/-- `str.strip()` on strings. -/
def pyStripS (s : String) : String := ⟨pyStrip s.data⟩

/-- `str.lower()` on strings (ASCII). -/
def pyLowerS (s : String) : String := ⟨s.data.map pyLowerC⟩

/-- `_norm` (src/app.py:427): `(s or "").strip().lower()`; a missing value is
modelled by the empty string. -/
def pynorm (s : String) : String := pyLowerS (pyStripS s)

/-- Python truthiness of a string: nonempty. -/
def pyTruthy (s : String) : Bool := !s.data.isEmpty

/-! ### Calendar dates

Embedding of Python `datetime.date` as year/month/day triples, together with
`calendar.monthrange(y, m)[1]` (`daysInMonth`), day stepping (`timedelta`
arithmetic), `date.toordinal` (`dToNum`) and `date.isoformat` (`isoDate`). -/
/-- `calendar.isleap`. -/
def isLeapB (y : Nat) : Bool := y % 4 == 0 && (y % 100 != 0 || y % 400 == 0)

/-- `calendar.monthrange(y, m)[1]`: number of days of month `m` of year `y`. -/
def daysInMonth (y m : Nat) : Nat :=
  if m = 2 then (if isLeapB y then 29 else 28)
  else if m = 4 ∨ m = 6 ∨ m = 9 ∨ m = 11 then 30
  else 31

/-- A Python `datetime.date` value. -/
structure MDate where
  year : Nat
  month : Nat
  day : Nat
deriving DecidableEq

/-- The constraints Python's `date` constructor enforces on a y/m/d triple
(the year-9999 cap is left out; every date parsed below has a 4-digit year). -/
def ValidDate (d : MDate) : Prop :=
  1 ≤ d.year ∧ 1 ≤ d.month ∧ d.month ≤ 12 ∧ 1 ≤ d.day ∧ d.day ≤ daysInMonth d.year d.month

instance (d : MDate) : Decidable (ValidDate d) := by
  unfold ValidDate; infer_instance

/-- Stepping a date forward one calendar day (`date + timedelta(days=1)`). -/
def nextDay (d : MDate) : MDate :=
  if d.day < daysInMonth d.year d.month then ⟨d.year, d.month, d.day + 1⟩
  else if d.month < 12 then ⟨d.year, d.month + 1, 1⟩
  else ⟨d.year + 1, 1, 1⟩

/-- `date + timedelta(days=n)`. -/
def addDays : MDate → Nat → MDate
  | d, 0 => d
  | d, n + 1 => addDays (nextDay d) n

/-- Python's strict order on dates (lexicographic on year/month/day). -/
def dateLt (a b : MDate) : Prop :=
  a.year < b.year ∨
    (a.year = b.year ∧ (a.month < b.month ∨ (a.month = b.month ∧ a.day < b.day)))

/-- Days in year `y` (366 on leap years). -/
def daysInYear (y : Nat) : Nat := if isLeapB y then 366 else 365

/-- Days in all years `1, …, y-1`: CPython's `_days_before_year`
(`(y-1)*365 + (y-1)//4 - (y-1)//100 + (y-1)//400`). -/
def daysBeforeYear (y : Nat) : Nat :=
  (y - 1) * 365 + (y - 1) / 4 - (y - 1) / 100 + (y - 1) / 400

/-- Days in all months `1, …, m-1` of year `y`. -/
def daysBeforeMonth (y m : Nat) : Nat := ((List.range' 1 (m - 1)).map (daysInMonth y)).sum

/-- `date.toordinal`: day number in the proleptic Gregorian calendar,
with `0001-01-01` mapped to `1`. -/
def dToNum (d : MDate) : Nat := daysBeforeYear d.year + daysBeforeMonth d.year d.month + d.day

/-! ### Date parsing and formatting

`parse_dt_any` (src/app.py:822-844) followed by `.date()`, and `parse_date`
(src/app.py:855-861).  The embedding covers the ISO-like shapes the repository
itself writes and reads: `YYYY-MM-DD`, optionally followed by `T` or a space
and `HH:MM` or `HH:MM:SS`; anything else parses to `none`, matching the
`return None` fallback of the source. -/

/-- Numeric value of a decimal digit character. -/
def digitVal (c : Char) : Nat := c.toNat - 48

/-- Two decimal digit characters as a number. -/
def twoDigits (a b : Char) : Nat := 10 * digitVal a + digitVal b

/-- Accepts the optional time suffix of an ISO-like datetime string. -/
def timePartOk : List Char → Bool
  | [] => true
  | sep :: rest =>
    (sep == 'T' || sep == ' ') &&
    (match rest with
     | [h1, h2, c1, n1, n2] =>
       c1 == ':' && [h1, h2, n1, n2].all Char.isDigit &&
         twoDigits h1 h2 ≤ 23 && twoDigits n1 n2 ≤ 59
     | [h1, h2, c1, n1, n2, c2, s1, s2] =>
       c1 == ':' && c2 == ':' && [h1, h2, n1, n2, s1, s2].all Char.isDigit &&
         twoDigits h1 h2 ≤ 23 && twoDigits n1 n2 ≤ 59 && twoDigits s1 s2 ≤ 59
     | _ => false)

/-- `parse_dt_any(s).date()` (src/app.py:822-844): strip, parse an ISO-like
date(-time), return `none` on failure; the ranges mirror what Python's
`datetime` constructor accepts. -/
def parseDateAny (s : String) : Option MDate :=
  match pyStrip s.data with
  | y1 :: y2 :: y3 :: y4 :: h1 :: m1 :: m2 :: h2 :: d1 :: d2 :: rest =>
    if h1 == '-' && h2 == '-' && ([y1, y2, y3, y4, m1, m2, d1, d2].all Char.isDigit)
        && timePartOk rest then
      let y := 1000 * digitVal y1 + 100 * digitVal y2 + 10 * digitVal y3 + digitVal y4
      let m := twoDigits m1 m2
      let dd := twoDigits d1 d2
      if 1 ≤ y ∧ 1 ≤ m ∧ m ≤ 12 ∧ 1 ≤ dd ∧ dd ≤ daysInMonth y m then some ⟨y, m, dd⟩
      else none
    else none
  | _ => none

/-- `parse_date` (src/app.py:855-861): `parse_dt_any` then `.date()`. -/
def parseDate (s : String) : Option MDate := parseDateAny s

/-- Two-digit zero padding. -/
def pad2 (n : Nat) : String := if n < 10 then "0" ++ toString n else toString n

/-- Four-digit zero padding. -/
def pad4 (n : Nat) : String :=
  if n < 10 then "000" ++ toString n
  else if n < 100 then "00" ++ toString n
  else if n < 1000 then "0" ++ toString n
  else toString n

/-- `date.isoformat()`. -/
def isoDate (d : MDate) : String := pad4 d.year ++ "-" ++ pad2 d.month ++ "-" ++ pad2 d.day

/-! ### Recurrence and tag normalization (src/app.py:430-480) -/

/-- `normalize_recurring` (src/app.py:451-464) on an already-string value
(the function lowercases and strips, maps empty/none/no/false to `None`,
keeps daily/weekly/monthly, maps yes/true to weekly, else `None`). -/
def normalizeRecurringStr (v : String) : Option String :=
  let t := pyLowerS (pyStripS v)
  if !pyTruthy t || t == "none" || t == "no" || t == "false" then none
  else if t == "daily" || t == "weekly" || t == "monthly" then some t
  else if t == "yes" || t == "true" then some "weekly"
  else none

/-- The JSON values a stored `recurring` field can carry (`None`, a string, or
a legacy boolean; Python stringifies non-string values via `str(value)`). -/
inductive RecurVal
  | noneV
  | strV (s : String)
  | boolV (b : Bool)
deriving DecidableEq

/-- `normalize_recurring` (src/app.py:451-464) on a stored value. -/
def normalizeRecurring : RecurVal → Option String
  | .noneV => none
  | .strV s => normalizeRecurringStr s
  | .boolV b => normalizeRecurringStr (if b then "True" else "False")

/-- The values a stored `tags` field can carry (missing/`None`, a list of
strings, or a delimited string). -/
inductive TagsVal
  | missing
  | listV (xs : List String)
  | strV (s : String)
deriving DecidableEq

/-- One iteration of the list branch of `normalize_tags` (src/app.py:430-447):
skip falsy items, strip, keep nonempty tokens. -/
def cleanToken (item : String) : Option String :=
  if !pyTruthy item then none
  else
    let tok := pyStripS item
    if pyTruthy tok then some tok else none

/-- `value.replace(';', ',')` on one character. -/
def semiToComma (c : Char) : Char := if c == ';' then ',' else c

/-- `normalize_tags` (src/app.py:430-447). -/
def normalizeTags : TagsVal → List String
  | .missing => []
  | .listV xs => xs.filterMap cleanToken
  | .strV s =>
    if !pyTruthy s then []
    else
      ((s.data.map semiToComma).splitOn ',').filterMap fun tok =>
        let t := pyStrip tok
        if t.isEmpty then none else some ⟨t⟩

/-- `next_recurring_due_date` (src/app.py:466-480). -/
def nextRecurringDueDate (current : MDate) (pattern : String) : Option MDate :=
  match normalizeRecurringStr pattern with
  | none => none
  | some freq =>
    if freq == "daily" then some (addDays current 1)
    else if freq == "weekly" then some (addDays current 7)
    else if freq == "monthly" then
      let month1 := current.month + 1
      let year := current.year + (month1 - 1) / 12
      let month := ((month1 - 1) % 12) + 1
      let lastDay := daysInMonth year month
      some ⟨year, month, min current.day lastDay⟩
    else none

/-- Modelled from the spec: "`monthly` → same day-of-month one calendar month
later, clamped to the last valid day of the target month"; used as the
reference point for claim C4 (daily/weekly are stated directly as +1/+7). -/
def specMonthlyNext (d : MDate) : MDate :=
  let ny := if d.month = 12 then d.year + 1 else d.year
  let nm := if d.month = 12 then 1 else d.month + 1
  ⟨ny, nm, min d.day (daysInMonth ny nm)⟩

/-! ### Task records and the flat-file store

A stored task is a JSON object; its typed fields are the keys the code reads
(`TASK_PERSISTED_KEYS`, src/app.py:908-923), `extra` carries any other keys
verbatim.  Keys that can be absent or `None` are `Option`s; `assigned_to` and
`notes` are only ever read through falsy-tolerant accessors, so they are plain
strings with `""` for missing. -/

structure TaskRec where
  text : String := ""
  done : Bool := false
  priority : String := "Medium"
  notes : String := ""
  assignedTo : String := ""
  assignedUsername : Option String := none
  owner : Option String := none
  createdBy : Option String := none
  createdAt : Option String := none
  dueDate : Option String := none
  recurring : RecurVal := RecurVal.noneV
  tags : TagsVal := TagsVal.missing
  completedAt : Option String := none
  completedBy : Option String := none
  overdue : Bool := false
  extra : List (String × String) := []
deriving DecidableEq

/-- Re-packing the result of `normalize_recurring` as a stored JSON value. -/
def recOfOpt : Option String → RecurVal
  | none => RecurVal.noneV
  | some s => RecurVal.strV s

/-- `apply_task_defaults` (src/app.py:482-487): normalize `tags` and
`recurring` on every loaded record (`setdefault("tags", [])` is subsumed:
`normalize_tags` already maps a missing value to `[]`). -/
def applyTaskDefaults (t : TaskRec) : TaskRec :=
  { t with
    tags := TagsVal.listV (normalizeTags t.tags),
    recurring := recOfOpt (normalizeRecurring t.recurring) }

/-- The per-record normalization `save_tasks` performs before writing the
flat file (src/app.py:1007-1019; the relational branch is disabled when no
database is configured). -/
def saveTaskNormalize (t : TaskRec) : TaskRec :=
  { t with
    tags := TagsVal.listV (normalizeTags t.tags),
    recurring := recOfOpt (normalizeRecurring t.recurring) }

/-- `save_tasks` on the flat-file backend: the list that gets persisted. -/
def saveTasksJson (ts : List TaskRec) : List TaskRec := ts.map saveTaskNormalize

/-- `load_tasks` on the flat-file backend (src/app.py:991-994): read the
persisted list and apply task defaults to each record. -/
def loadTasksJson (file : List TaskRec) : List TaskRec := file.map applyTaskDefaults

/-- Well-formedness of a stored tag list: every tag is a nonempty string that
is already stripped. -/
def cleanTagsB : TagsVal → Bool
  | TagsVal.listV xs => xs.all (fun x => pyTruthy x && pyStripS x == x)
  | _ => false

/-- A well-formed task record in the sense of the spec's round-trip claim:
its `tags` are a clean list and its `recurring` value is already normalized. -/
def wellFormedTaskB (t : TaskRec) : Bool :=
  cleanTagsB t.tags &&
    (t.recurring == RecurVal.noneV || t.recurring == RecurVal.strV "daily" ||
      t.recurring == RecurVal.strV "weekly" || t.recurring == RecurVal.strV "monthly")

/-! ### The JSON store (src/app.py:300-357)

`load_json`/`save_json_atomic` over one topic file.  The file's condition is
abstracted by `StoreSource`: present with decodable content, missing,
present but undecodable (`json.JSONDecodeError`), or unreadable (`OSError`,
e.g. permissions).  Exceptions that escape become `LoadOutcome.fatal`. -/

inductive StoreSource (α : Type)
  | missing
  | data (records : α)
  | malformed
  | unreadable
deriving DecidableEq

inductive LoadOutcome (α : Type)
  | val (records : α) (after : StoreSource α)
  | fatal
deriving DecidableEq

/-- `save_json_atomic` (src/app.py:324-339): atomically replace the topic
file; nothing is caught, so an I/O failure (modelled by `saveOk = false`)
propagates (`none`). -/
def saveJsonModel {α : Type} (records : α) (saveOk : Bool) : Option (StoreSource α) :=
  if saveOk then some (StoreSource.data records) else none

/-- `load_json` (src/app.py:342-353): return the decoded content; on
`FileNotFoundError` persist and return the default (a failure of that nested
`save_json_atomic` happens inside the except handler and propagates); on
`json.JSONDecodeError` or `OSError` return the default without persisting. -/
def loadJsonModel {α : Type} (src : StoreSource α) (default : α) (saveOk : Bool) :
    LoadOutcome α :=
  match src with
  | StoreSource.data d => LoadOutcome.val d src
  | StoreSource.missing =>
    if saveOk then LoadOutcome.val default (StoreSource.data default) else LoadOutcome.fatal
  | StoreSource.malformed => LoadOutcome.val default src
  | StoreSource.unreadable => LoadOutcome.val default src

/-- A concrete well-formed task record, used to witness the round-trip
theorem. -/
def c1sample : TaskRec :=
  { text := "write report", done := false, priority := "High",
    tags := TagsVal.listV ["work", "q3"], recurring := RecurVal.strV "weekly",
    dueDate := some "2024-01-01", owner := some "alice" }

/-! ### Users and task visibility (src/app.py:873-905) -/

/-- A stored user record (the fields visibility reads). -/
structure UserRec where
  username : String := ""
  displayName : String := ""
  role : String := "member"
deriving DecidableEq

/-- `assigned_to_me` (src/app.py:873-892): match primarily on the canonical
`assigned_username`; for records lacking one, match the stored `assigned_to`
display label case-insensitively against the user's display name. -/
def assignedToMe (t : TaskRec) (username : String) (users : List UserRec) : Bool :=
  let taskUsername := pynorm (t.assignedUsername.getD "")
  if pyTruthy taskUsername && taskUsername == pynorm username then true
  else
    let assigneeDisplay := pynorm t.assignedTo
    if !pyTruthy assigneeDisplay then false
    else
      match users.find? (fun u => pynorm u.username == pynorm username) with
      | some u =>
        let displayName := pynorm u.displayName
        pyTruthy displayName && assigneeDisplay == displayName
      | none => false

/-- `task_owner` (src/app.py:895-896): `_norm(task.get("owner") or
task.get("created_by"))`. -/
def taskOwner (t : TaskRec) : String :=
  let ow := t.owner.getD ""
  pynorm (if pyTruthy ow then ow else t.createdBy.getD "")

/-- `task_visible_to` (src/app.py:899-905). -/
def taskVisibleTo (t : TaskRec) (username : String) (users : List UserRec) : Bool :=
  let uname := pynorm username
  if !pyTruthy uname then false
  else taskOwner t == uname || assignedToMe t username users

/-! ### The toggle route (src/app.py:1690-1732)

`toggle(task_id)` as a function of the current clock string
(`iso_minutes(datetime.now())`), the acting user and role, the user
directory, and the in-memory task list; the body below line 1699 mutates
`ts` and the result is what `save_tasks` then persists.  The
`award_badges_for_user` call only touches the badge store, never `ts`. -/

def toggleCore (now username role : String) (users : List UserRec) (taskId : Nat)
    (ts : List TaskRec) : List TaskRec :=
  match ts[taskId]? with
  | none => ts
  | some t =>
    if role == "manager" || taskVisibleTo t username users then
      if !t.done then
        let t2 := { t with done := true, completedAt := some now,
                           completedBy := some username }
        let base := ts.set taskId t2
        match normalizeRecurring t2.recurring with
        | some freq =>
          if pyTruthy (t2.dueDate.getD "") then
            match parseDate (t2.dueDate.getD "") with
            | some due =>
              match nextRecurringDueDate due freq with
              | some nextDue =>
                let sib := { t2 with
                  done := false, completedAt := none, completedBy := none,
                  overdue := false, createdAt := some now,
                  dueDate := some (isoDate nextDue) }
                base ++ [sib]
              | none => base
            | none => base
          else base
        | none => base
      else
        ts.set taskId { t with done := false, completedAt := none, completedBy := none }
    else ts

/-- The sample recurring task used to witness the toggle theorems. -/
def c3sample : TaskRec :=
  { text := "water plants", recurring := RecurVal.strV "weekly",
    dueDate := some "2024-01-01" }

/-- A recurring task whose `overdue` flag is set and whose `created_at` is in
the past: completing it shows which fields the generated sibling does not
copy. -/
def c3overdueTask : TaskRec :=
  { text := "water plants", recurring := RecurVal.strV "weekly",
    dueDate := some "2024-01-01", overdue := true,
    createdAt := some "2023-12-01T09:00" }

/-! ### Completion statistics (src/app.py:652-710)

`get_user_completion_stats`, with the ambient `date.today()` made an explicit
argument.  Parsed completion dates are carried as their `date.toordinal`
values (`dToNum`): the source only sorts dates, subtracts them
(`(d2 - d1).days == 1`) and steps them backward one day at a time, and all
those operations transport along `dToNum` (see `dToNum_lt_of_dateLt`,
`dToNum_nextDay`). -/

structure Stats where
  completedTasks : List TaskRec
  completedCount : Nat
  completionDates : List Nat
  uniqueDates : List Nat
  longestStreak : Nat
  currentStreak : Nat
deriving DecidableEq

/-- The completer attribution of src/app.py:668-671: `completed_by`,
falling back to `assigned_username` when `completed_by` normalizes to empty
and the raw `assigned_username` is truthy. -/
def completerOf (t : TaskRec) : String :=
  let cb := pynorm (t.completedBy.getD "")
  if !pyTruthy cb && pyTruthy (t.assignedUsername.getD "") then
    pynorm (t.assignedUsername.getD "")
  else cb

/-- The longest-streak loop of src/app.py:683-693 over sorted distinct date
ordinals: bump the running streak when the current date is exactly one day
after the previous one, else reset it to 1, tracking the maximum. -/
def longestFoldAux : Option Nat → Nat → Nat → List Nat → Nat
  | _, longest, _, [] => longest
  | none, longest, _, x :: rest => longestFoldAux (some x) (max longest 1) 1 rest
  | some p, longest, streak, x :: rest =>
    if x == p + 1 then longestFoldAux (some x) (max longest (streak + 1)) (streak + 1) rest
    else longestFoldAux (some x) (max longest 1) 1 rest

/-- The current-streak while-loop of src/app.py:695-701: walk backward from
the cursor while the day is in the completion set.  The loop visits a
distinct member of the set at every iteration, so the number of distinct
dates bounds its iterations and serves as fuel. -/
def backRunAux (S : List Nat) : Nat → Nat → Nat
  | 0, _ => 0
  | fuel + 1, c => if c ∈ S then backRunAux S fuel (c - 1) + 1 else 0

/-- Python `sorted` on date ordinals. -/
def sortNats (l : List Nat) : List Nat := List.insertionSort (· ≤ ·) l

/-- The completed-task filter of src/app.py:664-673. -/
def completedTasksFor (uname : String) (tasks : List TaskRec) : List TaskRec :=
  tasks.filter (fun t => t.done && completerOf t == uname)

/-- The date extraction of src/app.py:675-680, as `date.toordinal` values. -/
def completionDatesOf (cts : List TaskRec) : List Nat :=
  cts.filterMap fun t =>
    match t.completedAt with
    | some stamp => if pyTruthy stamp then (parseDateAny stamp).map dToNum else none
    | none => none

/-- `sorted(set(completion_dates))` (src/app.py:682). -/
def uniqueDatesFor (uname : String) (tasks : List TaskRec) : List Nat :=
  sortNats (completionDatesOf (completedTasksFor uname tasks)).dedup

/-- `get_user_completion_stats` (src/app.py:652-710). -/
def userCompletionStats (today : MDate) (username : String)
    (tasks : List TaskRec) : Stats :=
  let uname := pynorm username
  if !pyTruthy uname then
    { completedTasks := [], completedCount := 0, completionDates := [],
      uniqueDates := [], longestStreak := 0, currentStreak := 0 }
  else
    let uniq := uniqueDatesFor uname tasks
    { completedTasks := completedTasksFor uname tasks,
      completedCount := (completedTasksFor uname tasks).length,
      completionDates := completionDatesOf (completedTasksFor uname tasks),
      uniqueDates := uniq,
      longestStreak := longestFoldAux none 0 0 uniq,
      currentStreak :=
        if uniq.isEmpty then 0
        else backRunAux uniq uniq.length (dToNum today) }

/-- The spec's notion of a streak, on day ordinals: the `k` days ending at
day `a` all carry a completion. -/
def runAt (S : List Nat) (a k : Nat) : Prop := ∀ j, j < k → (a - j) ∈ S

/-- The spec's notion "some run of `k` calendar-consecutive completion days
exists". -/
def hasRun (S : List Nat) (k : Nat) : Prop := ∃ a, runAt S a k

/-- The task list of the spec's worked streak example: completions by alice
on 2024-01-01, 2024-01-02, 2024-01-03 and 2024-01-05. -/
def c5tasks : List TaskRec :=
  [{ text := "t1", done := true, completedBy := some "alice",
     completedAt := some "2024-01-01T09:00" },
   { text := "t2", done := true, completedBy := some "alice",
     completedAt := some "2024-01-02T09:00" },
   { text := "t3", done := true, completedBy := some "alice",
     completedAt := some "2024-01-03T09:00" },
   { text := "t4", done := true, completedBy := some "alice",
     completedAt := some "2024-01-05T09:00" }]

/-! ### Badges (src/app.py:211-251, 494-649, 777-801)

The flat-file badge backend (`DB_ENABLED` is false without a configured
database): the badge catalog file and the user-badge link file form the
badge store. -/

structure BadgeRec where
  slug : String := ""
  name : String := ""
  description : String := ""
  iconPath : String := ""
deriving DecidableEq

structure UserBadgeRec where
  username : String := ""
  badgeSlug : String := ""
  earnedAt : String := ""
deriving DecidableEq

structure BadgeStore where
  badges : List BadgeRec
  userBadges : List UserBadgeRec
deriving DecidableEq

/-- `DEFAULT_BADGES` (src/app.py:215-234). -/
def defaultBadges : List BadgeRec :=
  [{ slug := "first_step", name := "First Step",
     description := "Complete your first task.",
     iconPath := "/static/badges/first_step.svg" },
   { slug := "task_master", name := "Task Master",
     description := "Complete 100 tasks.",
     iconPath := "/static/badges/task_master.svg" },
   { slug := "weekly_warrior", name := "Weekly Warrior",
     description := "Complete tasks every day for seven days in a row.",
     iconPath := "/static/badges/weekly_warrior.svg" }]

/-- `ensure_default_badges` (flat-file branch, src/app.py:543-552): append
the default badges whose normalized slug is not yet present.
`bootstrap_badges` memoizes this per process; re-running it is a no-op
(`ensureDefaultBadges_idem`), so the embedding simply applies it at each
entry point, as the source does on first use. -/
def ensureDefaultBadges (badges : List BadgeRec) : List BadgeRec :=
  badges ++ defaultBadges.filter
    (fun b => !badges.any (fun x => pynorm x.slug == pynorm b.slug))

/-- `get_badge_catalog().get(slug)` (src/app.py:564-565): the dict
comprehension keyed on the raw slug keeps the last badge per slug. -/
def catalogFind (badges : List BadgeRec) (slug : String) : Option BadgeRec :=
  badges.reverse.find? (fun b => b.slug == slug)

/-- `store_user_badge` (flat-file branch, src/app.py:609-649). -/
def storeUserBadge (nowIso username slug : String) (st : BadgeStore) :
    Option BadgeRec × BadgeStore :=
  let st := { st with badges := ensureDefaultBadges st.badges }
  let uname := pynorm username
  if !pyTruthy uname then (none, st)
  else
    match catalogFind st.badges slug with
    | none => (none, st)
    | some badge =>
      if st.userBadges.any
          (fun e => pynorm e.username == uname && e.badgeSlug == slug) then
        (none, st)
      else
        (some badge,
          { st with userBadges := st.userBadges
            ++ [{ username := uname, badgeSlug := slug, earnedAt := nowIso }] })

/-- The earned badge slugs: `{badge["slug"] for badge in get_user_badges}`
(flat-file branch of `get_user_badges`, src/app.py:589-602: entries for the
user whose `badge_slug` resolves in the catalog). -/
def earnedSlugsOf (username : String) (st : BadgeStore) : List String :=
  let badges := ensureDefaultBadges st.badges
  let uname := pynorm username
  if !pyTruthy uname then []
  else
    (st.userBadges.filter (fun e => pynorm e.username == uname)).filterMap
      (fun e => (catalogFind badges e.badgeSlug).map (fun _ => e.badgeSlug))

/-- One iteration of the awarding loop of src/app.py:796-800. -/
def awardStep (nowIso uname : String) (acc : List BadgeRec × BadgeStore)
    (slug : String) : List BadgeRec × BadgeStore :=
  match storeUserBadge nowIso uname slug acc.2 with
  | (some b, st2) => (acc.1 ++ [b], st2)
  | (none, st2) => (acc.1, st2)

/-- The target list built in src/app.py:788-794: badges whose threshold the
stats meet and which the user has not already earned, in catalog order. -/
def awardTargets (today : MDate) (uname : String) (tasks : List TaskRec)
    (st : BadgeStore) : List String :=
  let stats := userCompletionStats today uname tasks
  let earned := earnedSlugsOf uname st
  (if "first_step" ∉ earned ∧ 1 ≤ stats.completedCount then ["first_step"] else [])
  ++ (if "task_master" ∉ earned ∧ 100 ≤ stats.completedCount then ["task_master"] else [])
  ++ (if "weekly_warrior" ∉ earned ∧ 7 ≤ stats.longestStreak then ["weekly_warrior"] else [])

/-- `award_badges_for_user` (src/app.py:777-801), returning the newly
awarded badges and the updated badge store. -/
def awardBadgesForUser (nowIso : String) (today : MDate) (username : String)
    (tasks : List TaskRec) (st : BadgeStore) : List BadgeRec × BadgeStore :=
  let st := { st with badges := ensureDefaultBadges st.badges }
  let uname := pynorm username
  if !pyTruthy uname then ([], st)
  else (awardTargets today uname tasks st).foldl (awardStep nowIso uname) ([], st)

/-- "At most one UserBadge link per (username, badge slug) pair", usernames
compared normalized as the store compares them. -/
def atMostOnePerPair (ubs : List UserBadgeRec) : Prop :=
  List.Pairwise
    (fun e1 e2 => ¬(pynorm e1.username = pynorm e2.username ∧ e1.badgeSlug = e2.badgeSlug))
    ubs

instance (ubs : List UserBadgeRec) : Decidable (atMostOnePerPair ubs) := by
  unfold atMostOnePerPair
  infer_instance

/-! ### Notification preference resolution (src/app.py:2840-2859,
src/notifications/collectors.py:27-49, src/notifications/config.py)

The stored `daily_hour` of a user's notification preferences, as the two
loaders coerce it.  `PrefVal` is a stored JSON scalar and `pyIntOf` is Python
`int(...)` on it; `none` means `int` raises `TypeError`/`ValueError`. -/

inductive PrefVal
  | noneV
  | boolV (b : Bool)
  | intV (n : Int)
  | strV (s : String)
deriving DecidableEq

/-- Value of a nonempty all-digit character list. -/
def digitsVal (l : List Char) : Option Nat :=
  if l ≠ [] ∧ l.all (fun c => 48 ≤ c.toNat && c.toNat ≤ 57) = true then
    some (l.foldl (fun a c => 10 * a + digitVal c) 0)
  else none

/-- Python `int(s)` on a string: optional sign and decimal digits, with
surrounding whitespace allowed. -/
def pyIntOfStr (s : String) : Option Int :=
  match pyStrip s.data with
  | '-' :: ds => (digitsVal ds).map (fun n => -(n : Int))
  | '+' :: ds => (digitsVal ds).map (fun n => (n : Int))
  | ds => (digitsVal ds).map (fun n => (n : Int))

/-- Python `int(x)` on a stored JSON scalar. -/
def pyIntOf : PrefVal → Option Int
  | PrefVal.noneV => none
  | PrefVal.boolV b => some (if b then 1 else 0)
  | PrefVal.intV n => some n
  | PrefVal.strV s => pyIntOfStr s

/-- The resolved `daily_hour` of `load_notification_settings_for`
(src/app.py:2848-2851): `max(0, min(23, int(settings.get("daily_hour", 7))))`,
falling back to `NOTIFICATION_DEFAULTS["daily_hour"] = 7` when `int` raises.
A `none` input models a store with no stored value, for which the defaults
dict supplies the integer 7. -/
def loadSettingsDailyHour (stored : Option PrefVal) : Int :=
  match pyIntOf (stored.getD (PrefVal.intV 7)) with
  | some n => max 0 (min 23 n)
  | none => 7

/-- The `daily_hour` of `load_notification_preferences`
(src/notifications/collectors.py:42): `int(merged.get("daily_hour", 7))`
with no clamping; `none` is the uncaught exception when `int` raises. -/
def collectorsDailyHour (stored : Option PrefVal) : Option Int :=
  pyIntOf (stored.getD (PrefVal.intV 7))

/-! ## Theorems -/

theorem pyLowerC_idem (c : Char) : pyLowerC (pyLowerC c) = pyLowerC c := by
  unfold pyLowerC
  by_cases h : 65 ≤ c.toNat ∧ c.toNat ≤ 90
  · simp only [if_pos h]
    obtain ⟨h1, h2⟩ := h
    obtain ⟨k, hk1, hk2, hkeq⟩ : ∃ k, 65 ≤ k ∧ k ≤ 90 ∧ c.toNat = k :=
      ⟨c.toNat, h1, h2, rfl⟩
    rw [hkeq]
    interval_cases k <;> decide
  · simp only [if_neg h]

theorem isPySpace_pyLowerC (c : Char) : isPySpace (pyLowerC c) = isPySpace c := by
  unfold pyLowerC
  by_cases h : 65 ≤ c.toNat ∧ c.toNat ≤ 90
  · simp only [if_pos h]
    obtain ⟨h1, h2⟩ := h
    obtain ⟨k, hk1, hk2, hkeq⟩ : ∃ k, 65 ≤ k ∧ k ≤ 90 ∧ c.toNat = k :=
      ⟨c.toNat, h1, h2, rfl⟩
    have hc : isPySpace c = false := by
      unfold isPySpace
      have : c ≠ ' ' := by intro he; rw [he] at hkeq; simp at hkeq; omega
      have h2 : c ≠ '\t' := by intro he; rw [he] at hkeq; simp at hkeq; omega
      have h3 : c ≠ '\n' := by intro he; rw [he] at hkeq; simp at hkeq; omega
      have h4 : c ≠ '\r' := by intro he; rw [he] at hkeq; simp at hkeq; omega
      have h5 : c ≠ '\x0b' := by intro he; rw [he] at hkeq; simp at hkeq; omega
      have h6 : c ≠ '\x0c' := by intro he; rw [he] at hkeq; simp at hkeq; omega
      simp [this, h2, h3, h4, h5, h6]
    rw [hc]
    rw [hkeq]
    interval_cases k <;> decide
  · simp only [if_neg h]

theorem dropWhile_head?_false {α : Type} (p : α → Bool) (l : List α) {a : α}
    (h : (l.dropWhile p).head? = some a) : p a = false := by
  induction l with
  | nil => simp [List.dropWhile] at h
  | cons x t ih =>
    rw [List.dropWhile_cons] at h
    by_cases hp : p x
    · rw [if_pos hp] at h; exact ih h
    · rw [if_neg hp] at h
      simp at h
      subst h
      exact Bool.eq_false_iff.mpr hp

theorem dropWhile_eq_self_of_head? {α : Type} (p : α → Bool) (l : List α)
    (h : ∀ a, l.head? = some a → p a = false) : l.dropWhile p = l := by
  cases l with
  | nil => rfl
  | cons x t =>
    rw [List.dropWhile_cons, if_neg]
    have := h x rfl
    simp [this]

theorem dropWhile_isSuffix {α : Type} (p : α → Bool) (l : List α) :
    l.dropWhile p <:+ l := by
  induction l with
  | nil => exact List.suffix_refl _
  | cons x t ih =>
    rw [List.dropWhile_cons]
    by_cases hp : p x
    · rw [if_pos hp]
      exact ih.trans (List.suffix_cons x t)
    · rw [if_neg hp]

theorem getLast?_of_suffix {α : Type} {s l : List α} (h : s <:+ l) (hs : s ≠ []) :
    l.getLast? = s.getLast? := by
  obtain ⟨pre, rfl⟩ := h
  exact List.getLast?_append_of_ne_nil pre hs

theorem pyStrip_idem (l : List Char) : pyStrip (pyStrip l) = pyStrip l := by
  cases hA : l.dropWhile isPySpace with
  | nil =>
    have h1 : pyStrip l = [] := by unfold pyStrip; rw [hA]; rfl
    rw [h1]
    rfl
  | cons a t =>
    have ha : isPySpace a = false := dropWhile_head?_false _ l (by rw [hA]; rfl)
    -- S is the fully stripped list, reversed
    set S := (l.dropWhile isPySpace).reverse.dropWhile isPySpace with hS
    have hstrip : pyStrip l = S.reverse := rfl
    have hSsuffix : S <:+ (l.dropWhile isPySpace).reverse := dropWhile_isSuffix _ _
    have hSne : S ≠ [] := by
      intro hnil
      have hall : ∀ x ∈ (l.dropWhile isPySpace).reverse, isPySpace x := by
        rw [← List.dropWhile_eq_nil_iff]
        exact hnil
      have : isPySpace a = true := by
        apply hall
        rw [hA]
        simp
      rw [this] at ha
      exact Bool.noConfusion ha
    have hSlast : S.getLast? = some a := by
      have h1 : (l.dropWhile isPySpace).reverse.getLast? = S.getLast? :=
        getLast?_of_suffix hSsuffix hSne
      rw [← h1, List.getLast?_reverse, hA]
      rfl
    have hShead : ∀ c, S.head? = some c → isPySpace c = false := by
      intro c hc
      exact dropWhile_head?_false _ _ hc
    -- now compute pyStrip (S.reverse)
    have e1 : S.reverse.dropWhile isPySpace = S.reverse := by
      apply dropWhile_eq_self_of_head?
      intro c hc
      rw [List.head?_reverse] at hc
      rw [hSlast] at hc
      cases hc
      exact ha
    have e2 : S.reverse.reverse.dropWhile isPySpace = S := by
      rw [List.reverse_reverse]
      apply dropWhile_eq_self_of_head?
      exact hShead
    rw [hstrip]
    show ((S.reverse.dropWhile isPySpace).reverse.dropWhile isPySpace).reverse = S.reverse
    rw [e1, e2]

theorem pyStrip_map_pyLowerC (l : List Char) :
    pyStrip (l.map pyLowerC) = (pyStrip l).map pyLowerC := by
  have hdw : ∀ m : List Char, (m.map pyLowerC).dropWhile isPySpace
      = (m.dropWhile isPySpace).map pyLowerC := by
    intro m
    induction m with
    | nil => rfl
    | cons x t ih =>
      simp only [List.map_cons, List.dropWhile_cons, isPySpace_pyLowerC]
      by_cases hx : isPySpace x
      · rw [if_pos hx, if_pos hx, ih]
      · rw [if_neg hx, if_neg hx, List.map_cons]
  unfold pyStrip
  rw [hdw, ← List.map_reverse, hdw, List.map_reverse]

theorem pynorm_data (s : String) :
    (pynorm s).data = (pyStrip s.data).map pyLowerC := rfl

theorem pynorm_idem (s : String) : pynorm (pynorm s) = pynorm s := by
  apply congrArg String.mk
  show (pyStrip (pynorm s).data).map pyLowerC = (pyStrip s.data).map pyLowerC
  rw [pynorm_data, pyStrip_map_pyLowerC, pyStrip_idem, List.map_map]
  congr 1
  funext c
  show pyLowerC (pyLowerC c) = pyLowerC c
  exact pyLowerC_idem c

theorem dateLt_trans {a b c : MDate} (h1 : dateLt a b) (h2 : dateLt b c) : dateLt a c := by
  unfold dateLt at h1 h2 ⊢
  omega

theorem dateLt_nextDay (d : MDate) : dateLt d (nextDay d) := by
  obtain ⟨y, m, dd⟩ := d
  unfold nextDay dateLt
  split_ifs <;> (dsimp only) <;> omega

theorem dateLt_addDays (d : MDate) (n : Nat) (h : 1 ≤ n) : dateLt d (addDays d n) := by
  induction n generalizing d with
  | zero => omega
  | succ k ih =>
    show dateLt d (addDays (nextDay d) k)
    rcases Nat.eq_zero_or_pos k with hk | hk
    · subst hk
      exact dateLt_nextDay d
    · exact dateLt_trans (dateLt_nextDay d) (ih (nextDay d) hk)

theorem daysBeforeMonth_succ (y m : Nat) (h : 1 ≤ m) :
    daysBeforeMonth y (m + 1) = daysBeforeMonth y m + daysInMonth y m := by
  unfold daysBeforeMonth
  have h1 : m + 1 - 1 = (m - 1) + 1 := by omega
  rw [h1, List.range'_concat]
  have h2 : 1 + 1 * (m - 1) = m := by omega
  rw [h2]
  simp

theorem daysBeforeYear_succ (y : Nat) (h : 1 ≤ y) :
    daysBeforeYear (y + 1) = daysBeforeYear y + daysInYear y := by
  unfold daysBeforeYear daysInYear isLeapB
  have h1 : y + 1 - 1 = y := by omega
  rw [h1]
  by_cases hl : (y % 4 == 0 && (y % 100 != 0 || y % 400 == 0)) = true
  · rw [if_pos hl]
    simp only [Bool.and_eq_true, Bool.or_eq_true, beq_iff_eq, bne_iff_ne, ne_eq] at hl
    omega
  · rw [if_neg hl]
    simp only [Bool.and_eq_true, Bool.or_eq_true, beq_iff_eq, bne_iff_ne, ne_eq] at hl
    omega

theorem daysBeforeMonth_13 (y : Nat) : daysBeforeMonth y 13 = daysInYear y := by
  unfold daysBeforeMonth daysInYear
  by_cases h : isLeapB y = true
  · simp [List.range', daysInMonth, h]
  · simp only [Bool.not_eq_true] at h
    simp [List.range', daysInMonth, h]

theorem dToNum_nextDay {d : MDate} (h : ValidDate d) : dToNum (nextDay d) = dToNum d + 1 := by
  obtain ⟨y, m, dd⟩ := d
  obtain ⟨hy, hm1, hm2, hd1, hd2⟩ := h
  unfold nextDay dToNum
  dsimp only at *
  by_cases hlt : dd < daysInMonth y m
  · rw [if_pos hlt]
    dsimp only
    omega
  · rw [if_neg hlt]
    have hdd : dd = daysInMonth y m := by omega
    by_cases hm : m < 12
    · rw [if_pos hm]
      dsimp only
      rw [daysBeforeMonth_succ y m hm1]
      omega
    · rw [if_neg hm]
      dsimp only
      have hm12 : m = 12 := by omega
      subst hm12
      rw [daysBeforeYear_succ y hy]
      have h13 : daysBeforeMonth y 13 = daysInYear y := daysBeforeMonth_13 y
      have h12 : daysBeforeMonth y 13 = daysBeforeMonth y 12 + daysInMonth y 12 :=
        daysBeforeMonth_succ y 12 (by omega)
      have h1 : daysBeforeMonth (y + 1) 1 = 0 := rfl
      rw [h1]
      omega

theorem parseDateAny_valid {s : String} {d : MDate} (h : parseDateAny s = some d) :
    ValidDate d := by
  unfold parseDateAny at h
  split at h
  · dsimp only at h
    split_ifs at h with hc hv
    injection h with h
    subst h
    exact hv
  · exact Option.noConfusion h

theorem normalizeRecurringStr_cases {v f : String} (h : normalizeRecurringStr v = some f) :
    f = "daily" ∨ f = "weekly" ∨ f = "monthly" := by
  unfold normalizeRecurringStr at h
  dsimp only at h
  split_ifs at h with h1 h2 h3
  · injection h with h
    subst h
    simp only [Bool.or_eq_true, beq_iff_eq] at h2
    tauto
  · injection h with h
    subst h
    tauto

/-- C4: for every valid due date, `next_recurring_due_date` advances `daily`
by one day, `weekly` by seven days, and `monthly` to the same day-of-month one
calendar month later clamped to the last valid day of the target month
(`specMonthlyNext`, modelled from the spec's wording). -/
theorem c4_next_occurrence_algorithm (d : MDate) (h : ValidDate d) :
    nextRecurringDueDate d "daily" = some (addDays d 1) ∧
    nextRecurringDueDate d "weekly" = some (addDays d 7) ∧
    nextRecurringDueDate d "monthly" = some (specMonthlyNext d) := by
  obtain ⟨y, m, dd⟩ := d
  unfold ValidDate at h
  dsimp only at h
  obtain ⟨hy, hm1, hm2, hd1, hd2⟩ := h
  refine ⟨rfl, rfl, ?_⟩
  have hY : y + (m + 1 - 1) / 12 = (if m = 12 then y + 1 else y) := by
    split_ifs <;> omega
  have hM : (m + 1 - 1) % 12 + 1 = (if m = 12 then 1 else m + 1) := by
    split_ifs <;> omega
  show some ⟨y + (m + 1 - 1) / 12, (m + 1 - 1) % 12 + 1,
      min dd (daysInMonth (y + (m + 1 - 1) / 12) ((m + 1 - 1) % 12 + 1))⟩
    = some (specMonthlyNext ⟨y, m, dd⟩)
  unfold specMonthlyNext
  dsimp only
  rw [hY, hM]

/-- C4 witness: completing a monthly task due `2024-01-31` yields
`2024-02-29` (2024 is a leap year). -/
theorem c4_next_occurrence_algorithm_witness :
    ValidDate ⟨2024, 1, 31⟩ ∧
    nextRecurringDueDate ⟨2024, 1, 31⟩ "monthly" = some ⟨2024, 2, 29⟩ := by
  have h := c4_next_occurrence_algorithm ⟨2024, 1, 31⟩ (by decide)
  refine ⟨by decide, ?_⟩
  rw [h.2.2]
  decide

/-- C10: for every valid date and every pattern, `next_recurring_due_date`
returns no date when the pattern normalizes to `none`, and otherwise returns a
date strictly later than the input, so a completed recurring task can never
regenerate the same occurrence. -/
theorem c10_next_occurrence_strictly_later (d : MDate) (pattern : String)
    (h : ValidDate d) :
    (normalizeRecurringStr pattern = none → nextRecurringDueDate d pattern = none) ∧
    ∀ freq, normalizeRecurringStr pattern = some freq →
      ∃ d2, nextRecurringDueDate d pattern = some d2 ∧ dateLt d d2 := by
  obtain ⟨y, m, dd⟩ := d
  unfold ValidDate at h
  dsimp only at h
  obtain ⟨hy, hm1, hm2, hd1, hd2⟩ := h
  constructor
  · intro hn
    unfold nextRecurringDueDate
    rw [hn]
  · intro freq hf
    unfold nextRecurringDueDate
    rw [hf]
    rcases normalizeRecurringStr_cases hf with h1 | h1 | h1 <;> subst h1
    · exact ⟨addDays ⟨y, m, dd⟩ 1, rfl, dateLt_addDays _ 1 (by omega)⟩
    · exact ⟨addDays ⟨y, m, dd⟩ 7, rfl, dateLt_addDays _ 7 (by omega)⟩
    · refine ⟨_, rfl, ?_⟩
      unfold dateLt
      dsimp only
      omega

/-- C10 witness at a weekly pattern and the date 2024-01-01. -/
theorem c10_next_occurrence_strictly_later_witness :
    ValidDate ⟨2024, 1, 1⟩ ∧ normalizeRecurringStr "weekly" = some "weekly" ∧
    ∃ d2, nextRecurringDueDate ⟨2024, 1, 1⟩ "weekly" = some d2 ∧
      dateLt ⟨2024, 1, 1⟩ d2 := by
  have h := (c10_next_occurrence_strictly_later ⟨2024, 1, 1⟩ "weekly"
    (by decide)).2 "weekly" (by decide)
  exact ⟨by decide, by decide, h⟩

theorem cleanToken_clean {x : String} (h1 : pyTruthy x = true) (h2 : pyStripS x = x) :
    cleanToken x = some x := by
  unfold cleanToken
  rw [h1]
  simp only [Bool.not_true, Bool.false_eq_true, if_false]
  rw [h2, h1]
  simp

theorem normalizeTags_clean :
    ∀ xs : List String, (∀ x ∈ xs, pyTruthy x = true ∧ pyStripS x = x) →
      normalizeTags (TagsVal.listV xs) = xs := by
  intro xs
  induction xs with
  | nil => intro _; rfl
  | cons a t ih =>
    intro h
    have ha := h a (by simp)
    have ht := ih fun x hx => h x (by simp [hx])
    show List.filterMap cleanToken (a :: t) = a :: t
    rw [List.filterMap_cons, cleanToken_clean ha.1 ha.2]
    rw [show List.filterMap cleanToken t = t from ht]

theorem saveTaskNormalize_wf {t : TaskRec} (h : wellFormedTaskB t = true) :
    saveTaskNormalize t = t := by
  unfold wellFormedTaskB at h
  rw [Bool.and_eq_true] at h
  have htags : TagsVal.listV (normalizeTags t.tags) = t.tags := by
    cases htag : t.tags with
    | listV xs =>
      have hall : ∀ x ∈ xs, pyTruthy x = true ∧ pyStripS x = x := by
        have h1 := h.1
        rw [htag] at h1
        unfold cleanTagsB at h1
        rw [List.all_eq_true] at h1
        intro x hx
        have := h1 x hx
        rw [Bool.and_eq_true, beq_iff_eq] at this
        exact this
      rw [normalizeTags_clean xs hall]
    | missing => rw [htag] at h; exact absurd h.1 (by simp [cleanTagsB])
    | strV s => rw [htag] at h; exact absurd h.1 (by simp [cleanTagsB])
  have hrec : recOfOpt (normalizeRecurring t.recurring) = t.recurring := by
    have h2 := h.2
    simp only [Bool.or_eq_true, beq_iff_eq] at h2
    rcases h2 with ((h2 | h2) | h2) | h2 <;> rw [h2] <;> decide
  unfold saveTaskNormalize
  rw [htags, hrec]

/-- C1: store round-trip fidelity.  On the flat-file backend, `save_tasks`
followed by `load_tasks` returns exactly the saved record list whenever every
record is well formed (clean tag list, normalized recurrence); and at the
generic store layer, a `save_json_atomic` that succeeds followed by
`load_json` of the same topic returns exactly the saved records. -/
theorem c1_store_roundtrip (ts : List TaskRec) (h : ∀ t ∈ ts, wellFormedTaskB t = true) :
    loadTasksJson (saveTasksJson ts) = ts ∧
    ∀ (α : Type) (records default : α) (saveOk : Bool),
      saveJsonModel records true = some (StoreSource.data records) ∧
      loadJsonModel (StoreSource.data records) default saveOk
        = LoadOutcome.val records (StoreSource.data records) := by
  constructor
  · unfold loadTasksJson saveTasksJson
    rw [List.map_map]
    have he : ∀ t ∈ ts, (applyTaskDefaults ∘ saveTaskNormalize) t = t := by
      intro t ht
      have h1 := saveTaskNormalize_wf (h t ht)
      show applyTaskDefaults (saveTaskNormalize t) = t
      rw [h1]
      have h2 : applyTaskDefaults t = saveTaskNormalize t := rfl
      rw [h2, h1]
    calc ts.map (applyTaskDefaults ∘ saveTaskNormalize)
        = ts.map id := List.map_congr_left he
      _ = ts := List.map_id ts
  · intro α records default saveOk
    exact ⟨rfl, rfl⟩

/-- C1 witness: a concrete well-formed task list round-trips unchanged. -/
theorem c1_store_roundtrip_witness :
    (∀ t ∈ [c1sample], wellFormedTaskB t = true) ∧
    loadTasksJson (saveTasksJson [c1sample]) = [c1sample] :=
  ⟨by decide, (c1_store_roundtrip [c1sample] (by decide)).1⟩

/-- C7 counterexample: the claim says a task carrying only a legacy
`assigned_to="Nick"` label is visible to user `nick` and invisible to *any*
other user; but a second user `nora` whose display name is also `Nick`
satisfies the legacy display-label match and sees the task too. -/
theorem c7_legacy_assignee_visibility_cex :
    taskVisibleTo { assignedTo := "Nick" } "nora"
        [{ username := "nick", displayName := "Nick" },
         { username := "nora", displayName := "Nick" }] = true ∧
    ("nora" : String) ≠ "nick" := by decide

/-- C7 (amended): a task whose only assignment information is a legacy
`assigned_to = "Nick"` label (no `assigned_username`, no owner) is visible to
the user `nick` when the directory's record for `nick` has a display name
normalizing to `nick`, and invisible to every other user none of whose
directory records has a display name normalizing to `nick`. -/
theorem c7_legacy_assignee_visibility (t : TaskRec)
    (h1 : t.assignedUsername = none) (h2 : t.assignedTo = "Nick")
    (h3 : t.owner = none) (h4 : t.createdBy = none) :
    (∀ (users : List UserRec) (u : UserRec),
        users.find? (fun v => pynorm v.username == "nick") = some u →
        pynorm u.displayName = "nick" →
        taskVisibleTo t "nick" users = true) ∧
    (∀ (username : String) (users : List UserRec),
        pynorm username ≠ "nick" →
        (∀ u ∈ users, pynorm u.username = pynorm username →
          pynorm u.displayName ≠ "nick") →
        taskVisibleTo t username users = false) := by
  have hnick : pynorm "nick" = "nick" := by decide
  have hNick : pynorm "Nick" = "nick" := by decide
  have hown : taskOwner t = "" := by
    unfold taskOwner
    rw [h3, h4]
    rfl
  constructor
  · intro users u hfind hdisp
    have hvis : assignedToMe t "nick" users = true := by
      unfold assignedToMe
      rw [h1, h2]
      simp only [Option.getD_none, hnick]
      rw [hfind]
      dsimp only
      rw [hdisp]
      decide
    unfold taskVisibleTo
    simp only [hnick, hown, hvis]
    decide
  · intro username users hne hothers
    unfold taskVisibleTo
    cases hemp : pyTruthy (pynorm username) with
    | false => simp [hemp]
    | true =>
      simp only [hemp, Bool.not_true, Bool.false_eq_true, if_false]
      have howneq : ("" == pynorm username) = false := by
        rw [beq_eq_false_iff_ne]
        intro hcontra
        rw [← hcontra] at hemp
        exact absurd hemp (by decide)
      have hvis : assignedToMe t username users = false := by
        unfold assignedToMe
        rw [h1, h2]
        simp only [Option.getD_none, hNick]
        simp only [show pyTruthy (pynorm "") = false from by decide, Bool.false_and,
          Bool.false_eq_true, if_false]
        simp only [show (!pyTruthy "nick") = false from by decide, Bool.false_eq_true,
          if_false]
        cases hf : users.find? (fun v => pynorm v.username == pynorm username) with
        | none => rfl
        | some v =>
          have hv1 : pynorm v.username = pynorm username := by
            have := List.find?_some hf
            rwa [beq_iff_eq] at this
          have hv2 : pynorm v.displayName ≠ "nick" :=
            hothers v (List.mem_of_find?_eq_some hf) hv1
          have hne2 : ("nick" == pynorm v.displayName) = false := by
            rw [beq_eq_false_iff_ne]
            intro hcontra
            exact hv2 hcontra.symm
          dsimp only
          rw [hne2]
          simp
      rw [hown, hvis, howneq]
      decide

/-- C7 witness: the concrete scenario of the claim, with a second user whose
display name differs. -/
theorem c7_legacy_assignee_visibility_witness :
    taskVisibleTo { assignedTo := "Nick" } "nick"
        [{ username := "nick", displayName := "Nick" }] = true ∧
    taskVisibleTo { assignedTo := "Nick" } "liz"
        [{ username := "nick", displayName := "Nick" },
         { username := "liz", displayName := "Liz" }] = false := by
  have h := c7_legacy_assignee_visibility { assignedTo := "Nick" } rfl rfl rfl rfl
  exact ⟨h.1 _ { username := "nick", displayName := "Nick" } (by decide) (by decide),
    h.2 "liz" _ (by decide) (by decide)⟩

/-- C2: the `done ⇔ completed_at set` invariant is maintained by the toggle
operation: if every task in the list satisfies it, every task after
`toggle` satisfies it; moreover toggling an authorized not-done task sets
`completed_at` (and `completed_by`), and toggling a done task clears both. -/
theorem c2_toggle_done_iff_completed (now username role : String)
    (users : List UserRec) (taskId : Nat) (ts : List TaskRec)
    (hinv : ∀ t ∈ ts, t.completedAt.isSome = t.done) :
    (∀ t2 ∈ toggleCore now username role users taskId ts,
      t2.completedAt.isSome = t2.done) ∧
    (∀ t, ts[taskId]? = some t →
      (role == "manager" || taskVisibleTo t username users) = true →
      t.done = false →
      (toggleCore now username role users taskId ts)[taskId]?
        = some { t with
            done := true, completedAt := some now,
            completedBy := some username }) ∧
    (∀ t, ts[taskId]? = some t →
      (role == "manager" || taskVisibleTo t username users) = true →
      t.done = true →
      (toggleCore now username role users taskId ts)[taskId]?
        = some { t with
            done := false, completedAt := none,
            completedBy := none }) := by
  cases hT : ts[taskId]? with
  | none =>
    have hres : toggleCore now username role users taskId ts = ts := by
      unfold toggleCore
      rw [hT]
    refine ⟨?_, ?_, ?_⟩
    · rw [hres]
      exact hinv
    · intro t ht
      exact Option.noConfusion ht
    · intro t ht
      exact Option.noConfusion ht
  | some t0 =>
    have hlt : taskId < ts.length := by
      rcases List.getElem?_eq_some.mp hT with ⟨h, _⟩
      exact h
    by_cases hauth : (role == "manager" || taskVisibleTo t0 username users) = true
    · by_cases hdone : t0.done = true
      · -- toggling done → not done: clear completion metadata
        have hres : toggleCore now username role users taskId ts
            = ts.set taskId { t0 with
                done := false, completedAt := none,
                completedBy := none } := by
          unfold toggleCore
          rw [hT]
          dsimp only
          rw [if_pos hauth, hdone]
          rfl
        refine ⟨?_, ?_, ?_⟩
        · intro x hx
          rw [hres] at hx
          rcases List.mem_or_eq_of_mem_set hx with hx | rfl
          · exact hinv x hx
          · rfl
        · intro t ht hau hd
          injection ht with ht
          subst ht
          rw [hd] at hdone
          exact Bool.noConfusion hdone
        · intro t ht hau hd
          injection ht with ht
          subst ht
          rw [hres, List.getElem?_set_self]
          exact hlt
      · -- toggling not-done → done: set completion metadata, maybe append
        have hdone2 : t0.done = false := by
          revert hdone
          cases t0.done <;> simp
        have hres : (toggleCore now username role users taskId ts
              = ts.set taskId { t0 with
                  done := true, completedAt := some now,
                  completedBy := some username }) ∨
            ∃ sib : TaskRec, sib.done = false ∧ sib.completedAt = none ∧
              toggleCore now username role users taskId ts
                = ts.set taskId { t0 with
                    done := true, completedAt := some now,
                    completedBy := some username } ++ [sib] := by
          unfold toggleCore
          rw [hT]
          dsimp only
          rw [if_pos hauth, hdone2]
          simp only [Bool.not_false, if_true]
          cases hr : normalizeRecurring t0.recurring with
          | none => left; rfl
          | some freq =>
            dsimp only
            by_cases hd : pyTruthy (t0.dueDate.getD "") = true
            · rw [if_pos hd]
              cases hp : parseDate (t0.dueDate.getD "") with
              | none => left; rfl
              | some due =>
                dsimp only
                cases hn : nextRecurringDueDate due freq with
                | none => left; rfl
                | some nd =>
                  right
                  exact ⟨_, rfl, rfl, rfl⟩
            · rw [if_neg hd]
              left
              rfl
        have hmain : ∀ x ∈ toggleCore now username role users taskId ts,
            x.completedAt.isSome = x.done := by
          intro x hx
          rcases hres with h | ⟨sib, hs1, hs2, h⟩
          · rw [h] at hx
            rcases List.mem_or_eq_of_mem_set hx with hx | rfl
            · exact hinv x hx
            · rfl
          · rw [h] at hx
            rcases List.mem_append.mp hx with hx | hx
            · rcases List.mem_or_eq_of_mem_set hx with hx | rfl
              · exact hinv x hx
              · rfl
            · rw [List.mem_singleton.mp hx, hs1, hs2]
              rfl
        refine ⟨hmain, ?_, ?_⟩
        · intro t ht hau hd
          injection ht with ht
          subst ht
          rcases hres with h | ⟨sib, _, _, h⟩
          · rw [h, List.getElem?_set_self]
            exact hlt
          · rw [h, List.getElem?_append]
            rw [if_pos (by rw [List.length_set]; exact hlt)]
            rw [List.getElem?_set_self]
            exact hlt
        · intro t ht hau hd
          injection ht with ht
          subst ht
          rw [hd] at hdone2
          exact Bool.noConfusion hdone2
    · have hres : toggleCore now username role users taskId ts = ts := by
        unfold toggleCore
        rw [hT]
        dsimp only
        rw [if_neg hauth]
      refine ⟨?_, ?_, ?_⟩
      · rw [hres]
        exact hinv
      · intro t ht hau hd
        injection ht with ht
        subst ht
        exact absurd hau hauth
      · intro t ht hau hd
        injection ht with ht
        subst ht
        exact absurd hau hauth

/-- C2 witness: a one-task list satisfying the invariant keeps it after a
toggle. -/
theorem c2_toggle_done_iff_completed_witness :
    (∀ t ∈ ([{ text := "a" }] : List TaskRec), t.completedAt.isSome = t.done) ∧
    ∀ t2 ∈ toggleCore "2024-01-02T10:00" "mgr" "manager" [] 0
        ([{ text := "a" }] : List TaskRec),
      t2.completedAt.isSome = t2.done :=
  ⟨by decide,
    (c2_toggle_done_iff_completed "2024-01-02T10:00" "mgr" "manager" [] 0
      [{ text := "a" }] (by decide)).1⟩

/-- C3 counterexample: the claim says the appended sibling "copies all fields
except completion metadata", but completing a weekly task whose stored
`overdue` flag is `true` yields a sibling with `overdue = false` (the code
also resets `created_at` to the completion time), so the sibling does not
copy every non-completion field. -/
theorem c3_weekly_completion_cex :
    (((toggleCore "2024-01-02T10:00" "alice" "manager" [] 0
        [c3overdueTask])[1]?).map TaskRec.overdue = some false) ∧
    c3overdueTask.overdue = true := by decide

/-- C3 (amended): toggling an authorized not-done task whose recurrence
normalizes to `weekly` and whose due date is `2024-01-01` retains the
original in place with done=true and completion metadata set, and appends
exactly one sibling task that copies all fields except the completion
metadata (cleared), the `overdue` flag (reset to `false`) and `created_at`
(set to the completion timestamp), with done=false, no completed_at, and
due_date=2024-01-08. -/
theorem c3_weekly_completion_inserts_sibling (now username role : String)
    (users : List UserRec) (taskId : Nat) (ts : List TaskRec) (t : TaskRec)
    (hT : ts[taskId]? = some t)
    (hauth : (role == "manager" || taskVisibleTo t username users) = true)
    (hdone : t.done = false)
    (hrec : normalizeRecurring t.recurring = some "weekly")
    (hdue : t.dueDate = some "2024-01-01") :
    toggleCore now username role users taskId ts
      = ts.set taskId { t with
          done := true, completedAt := some now, completedBy := some username }
        ++ [{ t with
          done := false, completedAt := none, completedBy := none,
          overdue := false, createdAt := some now,
          dueDate := some "2024-01-08" }] ∧
    (toggleCore now username role users taskId ts).length = ts.length + 1 := by
  have heq : toggleCore now username role users taskId ts
      = ts.set taskId { t with
          done := true, completedAt := some now, completedBy := some username }
        ++ [{ t with
          done := false, completedAt := none, completedBy := none,
          overdue := false, createdAt := some now,
          dueDate := some "2024-01-08" }] := by
    unfold toggleCore
    rw [hT]
    dsimp only
    rw [if_pos hauth, hdone]
    simp only [Bool.not_false, if_true]
    rw [hrec]
    dsimp only
    rw [hdue]
    simp only [Option.getD_some]
    simp only [show pyTruthy "2024-01-01" = true from by decide, if_true]
    rw [show parseDate "2024-01-01" = some ⟨2024, 1, 1⟩ from by decide]
    dsimp only
    rw [show nextRecurringDueDate ⟨2024, 1, 1⟩ "weekly" = some ⟨2024, 1, 8⟩ from by decide]
    dsimp only
    rw [show isoDate ⟨2024, 1, 8⟩ = "2024-01-08" from by decide]
  refine ⟨heq, ?_⟩
  rw [heq]
  simp

/-- C3 witness: the concrete scenario at a one-task list. -/
theorem c3_weekly_completion_inserts_sibling_witness :
    toggleCore "2024-01-02T10:00" "mgr" "manager" [] 0 [c3sample]
      = [c3sample].set 0 { c3sample with
          done := true, completedAt := some "2024-01-02T10:00",
          completedBy := some "mgr" }
        ++ [{ c3sample with
          done := false, completedAt := none, completedBy := none,
          overdue := false, createdAt := some "2024-01-02T10:00",
          dueDate := some "2024-01-08" }] :=
  (c3_weekly_completion_inserts_sibling "2024-01-02T10:00" "mgr" "manager" [] 0
    [c3sample] c3sample (by decide) (by decide) (by decide) (by decide)
    (by decide)).1

theorem runAt_mono {S : List Nat} {a k k' : Nat} (h : runAt S a k) (hle : k' ≤ k) :
    runAt S a k' :=
  fun j hj => h j (lt_of_lt_of_le hj hle)

theorem backRunAux_le (S : List Nat) : ∀ (fuel a : Nat), backRunAux S fuel a ≤ fuel := by
  intro fuel
  induction fuel with
  | zero => intro a; exact Nat.le_refl 0
  | succ k ih =>
    intro a
    unfold backRunAux
    by_cases h : a ∈ S
    · rw [if_pos h]
      exact Nat.succ_le_succ (ih (a - 1))
    · rw [if_neg h]
      exact Nat.zero_le _

theorem backRunAux_runAt (S : List Nat) :
    ∀ (fuel a : Nat), runAt S a (backRunAux S fuel a) := by
  intro fuel
  induction fuel with
  | zero => intro a j hj; exact absurd hj (by simp [backRunAux])
  | succ k ih =>
    intro a
    unfold backRunAux
    by_cases h : a ∈ S
    · rw [if_pos h]
      intro j hj
      cases j with
      | zero => simpa using h
      | succ j2 =>
        have := ih (a - 1) j2 (by omega)
        rwa [Nat.sub_sub, Nat.add_comm 1 j2] at this
    · rw [if_neg h]
      intro j hj
      exact absurd hj (by omega)

theorem backRunAux_stop (S : List Nat) :
    ∀ (fuel a : Nat), backRunAux S fuel a = fuel ∨
      ¬ runAt S a (backRunAux S fuel a + 1) := by
  intro fuel
  induction fuel with
  | zero => intro a; left; rfl
  | succ k ih =>
    intro a
    unfold backRunAux
    by_cases h : a ∈ S
    · rw [if_pos h]
      rcases ih (a - 1) with h2 | h2
      · left
        rw [h2]
      · right
        intro hrun
        apply h2
        intro j hj
        have := hrun (j + 1) (by omega)
        rw [Nat.sub_sub, Nat.add_comm 1 j]
        exact this
    · rw [if_neg h]
      right
      intro hrun
      exact h (by simpa using hrun 0 (by omega))

theorem subset_toFinset_length {l1 l2 : List Nat} (hnd : l1.Nodup) (hsub : l1 ⊆ l2) :
    l1.length ≤ l2.length := by
  have h1 : l1.toFinset.card = l1.length := List.toFinset_card_of_nodup hnd
  have h2 : l1.toFinset ⊆ l2.toFinset := by
    intro x hx
    rw [List.mem_toFinset] at hx ⊢
    exact hsub hx
  calc l1.length = l1.toFinset.card := h1.symm
    _ ≤ l2.toFinset.card := Finset.card_le_card h2
    _ ≤ l2.length := List.toFinset_card_le l2

theorem runAt_le_length {S : List Nat} (hnd : S.Nodup) (h0 : (0 : Nat) ∉ S)
    {a k : Nat} (h : runAt S a k) : k ≤ S.length := by
  have hmem : ∀ j, j < k → (a - j) ∈ S := h
  have hpos : ∀ j, j < k → 1 ≤ a - j := by
    intro j hj
    have := hmem j hj
    rcases Nat.eq_zero_or_pos (a - j) with hz | hp
    · rw [hz] at this
      exact absurd this h0
    · exact hp
  have hlist : ((List.range k).map (fun j => a - j)).length ≤ S.length := by
    apply subset_toFinset_length
    · apply List.Nodup.map_on
      · intro x hx y hy hxy
        rw [List.mem_range] at hx hy
        have hxa := hpos x hx
        have hya := hpos y hy
        omega
      · exact List.nodup_range k
    · intro b hb
      rw [List.mem_map] at hb
      rcases hb with ⟨j, hj, rfl⟩
      rw [List.mem_range] at hj
      exact hmem j hj
  simpa using hlist

/-- The current-streak walk computes exactly the number of consecutive days
with completions, counting backward from `today`. -/
theorem currentStreak_spec (S : List Nat) (hnd : S.Nodup) (h0 : (0 : Nat) ∉ S)
    (today : Nat) :
    runAt S today (if S.isEmpty then 0 else backRunAux S S.length today) ∧
    ¬ runAt S today ((if S.isEmpty then 0 else backRunAux S S.length today) + 1) := by
  by_cases hemp : S.isEmpty = true
  · rw [if_pos hemp]
    have hS : S = [] := List.isEmpty_iff.mp hemp
    constructor
    · intro j hj
      exact absurd hj (by omega)
    · intro hrun
      have := hrun 0 (by omega)
      rw [hS] at this
      exact absurd this (List.not_mem_nil _)
  · rw [if_neg hemp]
    refine ⟨backRunAux_runAt S S.length today, ?_⟩
    rcases backRunAux_stop S S.length today with h | h
    · intro hrun
      have hle := runAt_le_length hnd h0 hrun
      rw [h] at hle
      omega
    · exact h

theorem lfAux_spec (S : List Nat) (hsort : List.Sorted (· < ·) S)
    (h0 : (0 : Nat) ∉ S) :
    ∀ (xs pre : List Nat) (p longest streak : Nat),
      S = pre ++ p :: xs →
      streak ≤ longest →
      runAt S p streak →
      ¬ runAt S p (streak + 1) →
      hasRun S longest →
      (∀ a, a ∈ pre ++ [p] → ¬ runAt S a (longest + 1)) →
      hasRun S (longestFoldAux (some p) longest streak xs) ∧
        ¬ hasRun S (longestFoldAux (some p) longest streak xs + 1) := by
  intro xs
  induction xs with
  | nil =>
    intro pre p longest streak hS hle hrun hstop hach hmax
    refine ⟨hach, ?_⟩
    rintro ⟨a, ha⟩
    have haS : a ∈ S := by simpa using ha 0 (by omega)
    have hamem : a ∈ pre ++ [p] := by
      rw [hS] at haS
      simpa using haS
    exact hmax a hamem ha
  | cons x rest ih =>
    intro pre p longest streak hS hle hrun hstop hach hmax
    have hsplit : List.Pairwise (· < ·) (pre ++ p :: x :: rest) := hS ▸ hsort
    obtain ⟨hpre, hcons, hcross⟩ := List.pairwise_append.mp hsplit
    have hpx : p < x := (List.pairwise_cons.mp hcons).1 x (by simp)
    have hrest : ∀ b ∈ rest, x < b :=
      (List.pairwise_cons.mp (List.pairwise_cons.mp hcons).2).1
    have hpre_lt : ∀ a ∈ pre, a < p := fun a ha => hcross a ha p (by simp)
    have hxS : x ∈ S := by rw [hS]; simp
    have hx1 : 1 ≤ x := by
      rcases Nat.eq_zero_or_pos x with hz | hp2
      · rw [hz] at hxS
        exact absurd hxS h0
      · exact hp2
    have hSsplit : S = (pre ++ [p]) ++ x :: rest := by rw [hS]; simp
    by_cases hx : x = p + 1
    · have hrun2 : runAt S x (streak + 1) := by
        intro j hj
        cases j with
        | zero => simpa using hxS
        | succ j2 =>
          have he : x - (j2 + 1) = p - j2 := by omega
          rw [he]
          exact hrun j2 (by omega)
      have hstop2 : ¬ runAt S x (streak + 1 + 1) := by
        intro hr
        apply hstop
        intro j hj
        have := hr (j + 1) (by omega)
        have he : x - (j + 1) = p - j := by omega
        rwa [he] at this
      have hfold : longestFoldAux (some p) longest streak (x :: rest)
          = longestFoldAux (some x) (max longest (streak + 1)) (streak + 1) rest := by
        show (if (x == p + 1) = true
            then longestFoldAux (some x) (max longest (streak + 1)) (streak + 1) rest
            else longestFoldAux (some x) (max longest 1) 1 rest)
          = longestFoldAux (some x) (max longest (streak + 1)) (streak + 1) rest
        rw [if_pos (by simpa using hx)]
      rw [hfold]
      apply ih (pre ++ [p]) x (max longest (streak + 1)) (streak + 1) hSsplit
        (le_max_right _ _) hrun2 hstop2
      · rcases max_choice longest (streak + 1) with hm | hm
        · rw [hm]; exact hach
        · rw [hm]; exact ⟨x, hrun2⟩
      · intro a ha
        rw [List.mem_append] at ha
        rcases ha with ha2 | ha3
        · intro hr
          exact hmax a ha2 (runAt_mono hr (by omega))
        · have hax : a = x := by simpa using ha3
          subst hax
          intro hr
          exact hstop2 (runAt_mono hr (by
            have := le_max_right longest (streak + 1)
            omega))
    · have hrun2 : runAt S x 1 := by
        intro j hj
        have hj0 : j = 0 := by omega
        subst hj0
        simpa using hxS
      have hxm1 : x - 1 ∉ S := by
        intro hmem
        rw [hS] at hmem
        rcases List.mem_append.mp hmem with hin | hin
        · have := hpre_lt _ hin
          omega
        · rcases (by simpa using hin : x - 1 = p ∨ x - 1 = x ∨ x - 1 ∈ rest) with
            h1 | h1 | h1
          · omega
          · omega
          · have := hrest _ h1
            omega
      have hstop2 : ¬ runAt S x 2 := by
        intro hr
        exact hxm1 (by simpa using hr 1 (by omega))
      have hfold : longestFoldAux (some p) longest streak (x :: rest)
          = longestFoldAux (some x) (max longest 1) 1 rest := by
        show (if (x == p + 1) = true
            then longestFoldAux (some x) (max longest (streak + 1)) (streak + 1) rest
            else longestFoldAux (some x) (max longest 1) 1 rest)
          = longestFoldAux (some x) (max longest 1) 1 rest
        rw [if_neg (by simpa using hx)]
      rw [hfold]
      apply ih (pre ++ [p]) x (max longest 1) 1 hSsplit (le_max_right _ _)
        hrun2 hstop2
      · rcases max_choice longest 1 with hm | hm
        · rw [hm]; exact hach
        · rw [hm]; exact ⟨x, hrun2⟩
      · intro a ha
        rw [List.mem_append] at ha
        rcases ha with ha2 | ha3
        · intro hr
          exact hmax a ha2 (runAt_mono hr (by omega))
        · have hax : a = x := by simpa using ha3
          subst hax
          intro hr
          exact hstop2 (runAt_mono hr (by
            have := le_max_right longest 1
            omega))

/-- The single sorted pass of src/app.py:683-693 computes exactly the length
of the longest run of calendar-consecutive distinct completion dates. -/
theorem longestFold_spec (S : List Nat) (hsort : List.Sorted (· < ·) S)
    (h0 : (0 : Nat) ∉ S) :
    hasRun S (longestFoldAux none 0 0 S) ∧
      ¬ hasRun S (longestFoldAux none 0 0 S + 1) := by
  cases S with
  | nil =>
    constructor
    · exact ⟨0, fun j hj => absurd hj (show ¬ j < 0 by omega)⟩
    · rintro ⟨a, ha⟩
      have := ha 0 (by omega)
      exact absurd (by simpa using this) (List.not_mem_nil (a : Nat))
  | cons x rest =>
    have hx1 : 1 ≤ x := by
      rcases Nat.eq_zero_or_pos x with hz | hp2
      · subst hz
        exact absurd (by simp : (0 : Nat) ∈ 0 :: rest) h0
      · exact hp2
    have hxS : x ∈ x :: rest := by simp
    have hrest : ∀ b ∈ rest, x < b := (List.pairwise_cons.mp hsort).1
    have hrun1 : runAt (x :: rest) x 1 := by
      intro j hj
      have hj0 : j = 0 := by omega
      subst hj0
      simpa using hxS
    have hstop1 : ¬ runAt (x :: rest) x 2 := by
      intro hr
      have hmem := hr 1 (by omega)
      rcases (by simpa using hmem : x - 1 = x ∨ x - 1 ∈ rest) with h1 | h1
      · omega
      · have := hrest _ h1
        omega
    have hres : longestFoldAux none 0 0 (x :: rest)
        = longestFoldAux (some x) (max 0 1) 1 rest := rfl
    rw [hres]
    apply lfAux_spec (x :: rest) hsort h0 rest [] x (max 0 1) 1 rfl (by simp)
      hrun1 hstop1
    · exact ⟨x, by simpa using hrun1⟩
    · intro a ha
      have hax : a = x := by simpa using ha
      subst hax
      intro hr
      exact hstop1 (runAt_mono hr (by simp))

theorem dToNum_pos {d : MDate} (h : ValidDate d) : 1 ≤ dToNum d := by
  obtain ⟨h1, h2, h3, h4, h5⟩ := h
  unfold dToNum
  omega

theorem sortNats_sorted_of_nodup (l : List Nat) :
    List.Sorted (· < ·) (sortNats l.dedup) := by
  apply List.Sorted.lt_of_le
  · exact List.sorted_insertionSort _ _
  · exact ((List.perm_insertionSort _ _).nodup_iff).mpr (List.nodup_dedup l)

theorem sortNats_mem (l : List Nat) (x : Nat) : x ∈ sortNats l.dedup ↔ x ∈ l := by
  unfold sortNats
  rw [List.Perm.mem_iff (List.perm_insertionSort _ _), List.mem_dedup]

theorem completionDates_zero_not_mem (cts : List TaskRec) :
    (0 : Nat) ∉ completionDatesOf cts := by
  intro hmem
  unfold completionDatesOf at hmem
  rw [List.mem_filterMap] at hmem
  rcases hmem with ⟨t, ht, hf⟩
  cases hca : t.completedAt with
  | none =>
    rw [hca] at hf
    exact Option.noConfusion hf
  | some stamp =>
    rw [hca] at hf
    dsimp only at hf
    by_cases hs : pyTruthy stamp = true
    · rw [if_pos hs] at hf
      rw [Option.map_eq_some'] at hf
      rcases hf with ⟨d, hparse, hdn⟩
      have := dToNum_pos (parseDateAny_valid hparse)
      omega
    · rw [if_neg hs] at hf
      exact Option.noConfusion hf

theorem userCompletionStats_uniq_shape (today : MDate) (username : String)
    (tasks : List TaskRec) :
    (userCompletionStats today username tasks).uniqueDates
        = uniqueDatesFor (pynorm username) tasks ∨
      (userCompletionStats today username tasks).uniqueDates = [] := by
  unfold userCompletionStats
  dsimp only
  split_ifs with h h2
  · exact Or.inr rfl
  · exact Or.inl rfl
  · exact Or.inl rfl

theorem userCompletionStats_streak_eq (today : MDate) (username : String)
    (tasks : List TaskRec) :
    (userCompletionStats today username tasks).longestStreak
      = longestFoldAux none 0 0 (userCompletionStats today username tasks).uniqueDates ∧
    (userCompletionStats today username tasks).currentStreak
      = (if (userCompletionStats today username tasks).uniqueDates.isEmpty then 0
          else backRunAux (userCompletionStats today username tasks).uniqueDates
            (userCompletionStats today username tasks).uniqueDates.length
            (dToNum today)) := by
  unfold userCompletionStats
  dsimp only
  by_cases h : (!pyTruthy (pynorm username)) = true
  · rw [if_pos h]
    exact ⟨rfl, rfl⟩
  · rw [if_neg h]
    exact ⟨rfl, rfl⟩

theorem userCompletionStats_uniq_props (today : MDate) (username : String)
    (tasks : List TaskRec) :
    List.Sorted (· < ·) (userCompletionStats today username tasks).uniqueDates ∧
    (0 : Nat) ∉ (userCompletionStats today username tasks).uniqueDates := by
  rcases userCompletionStats_uniq_shape today username tasks with h | h
  · rw [h]
    unfold uniqueDatesFor
    refine ⟨sortNats_sorted_of_nodup _, ?_⟩
    intro hmem
    rw [sortNats_mem] at hmem
    exact completionDates_zero_not_mem _ hmem
  · rw [h]
    exact ⟨List.sorted_nil, List.not_mem_nil 0⟩

/-- C5: for every user, task list and "today", `get_user_completion_stats`
computes `longest_streak` as the length of the longest run of
calendar-consecutive distinct completion dates (there is a run of that
length and none longer), and `current_streak` as the number of consecutive
days counting backward from today on which a completion date exists (the
backward run holds and cannot be extended; in particular it is 0 when today
has no completion).  For the spec's example — completions on 2024-01-01,
2024-01-02, 2024-01-03 and 2024-01-05 — longest_streak is 3, current_streak
is 3 when today is 2024-01-03 and 0 when today is 2024-01-06. -/
theorem c5_completion_stats_streaks (today : MDate) (username : String)
    (tasks : List TaskRec) :
    (hasRun (userCompletionStats today username tasks).uniqueDates
        (userCompletionStats today username tasks).longestStreak ∧
      ¬ hasRun (userCompletionStats today username tasks).uniqueDates
        ((userCompletionStats today username tasks).longestStreak + 1)) ∧
    (runAt (userCompletionStats today username tasks).uniqueDates (dToNum today)
        (userCompletionStats today username tasks).currentStreak ∧
      ¬ runAt (userCompletionStats today username tasks).uniqueDates (dToNum today)
        ((userCompletionStats today username tasks).currentStreak + 1)) ∧
    (userCompletionStats ⟨2024, 1, 3⟩ "alice" c5tasks).longestStreak = 3 ∧
    (userCompletionStats ⟨2024, 1, 3⟩ "alice" c5tasks).currentStreak = 3 ∧
    (userCompletionStats ⟨2024, 1, 6⟩ "alice" c5tasks).currentStreak = 0 := by
  obtain ⟨hsorted, h0⟩ := userCompletionStats_uniq_props today username tasks
  obtain ⟨hl, hc⟩ := userCompletionStats_streak_eq today username tasks
  have hnd : (userCompletionStats today username tasks).uniqueDates.Nodup :=
    hsorted.nodup
  refine ⟨?_, ?_, by decide, by decide, by decide⟩
  · rw [hl]
    exact longestFold_spec _ hsorted h0
  · rw [hc]
    exact currentStreak_spec _ hnd h0 (dToNum today)

/-! ### Badge awarding (C6)

`bootstrap_badges` + `award_badges_for_user` re-run on an unchanged store and
task list: the second run awards nothing, and the store keeps at most one
user-badge link per (normalized username, slug) pair. -/

theorem ensureDefaultBadges_idem (b : List BadgeRec) :
    ensureDefaultBadges (ensureDefaultBadges b) = ensureDefaultBadges b := by
  unfold ensureDefaultBadges
  have hnil : defaultBadges.filter
      (fun d => !(b ++ defaultBadges.filter
          (fun x => !b.any (fun y => pynorm y.slug == pynorm x.slug))).any
        (fun x => pynorm x.slug == pynorm d.slug)) = [] := by
    rw [List.filter_eq_nil_iff]
    intro d hd hcontra
    rw [Bool.not_eq_true'] at hcontra
    have htrue : ((b ++ defaultBadges.filter
        (fun x => !b.any (fun y => pynorm y.slug == pynorm x.slug))).any
          (fun x => pynorm x.slug == pynorm d.slug)) = true := by
      rw [List.any_append, Bool.or_eq_true]
      by_cases hb : b.any (fun y => pynorm y.slug == pynorm d.slug) = true
      · exact Or.inl hb
      · refine Or.inr (List.any_eq_true.mpr ⟨d, List.mem_filter.mpr ⟨hd, ?_⟩, by simp⟩)
        rw [Bool.not_eq_true']
        exact Bool.eq_false_iff.mpr hb
    rw [htrue] at hcontra
    cases hcontra
  rw [hnil, List.append_nil]

theorem storeUserBadge_badges (n u s : String) (st : BadgeStore) :
    (storeUserBadge n u s st).2.badges = ensureDefaultBadges st.badges := by
  unfold storeUserBadge
  dsimp only
  by_cases h1 : (!pyTruthy (pynorm u)) = true
  · rw [if_pos h1]
  · rw [if_neg h1]
    cases hc : catalogFind (ensureDefaultBadges st.badges) s with
    | none => rfl
    | some b2 =>
      dsimp only
      by_cases h2 : (st.userBadges.any
          (fun e => pynorm e.username == pynorm u && e.badgeSlug == s)) = true
      · rw [if_pos h2]
      · rw [if_neg h2]

theorem storeUserBadge_userBadges (n u s : String) (st : BadgeStore) :
    (storeUserBadge n u s st).2.userBadges = st.userBadges ∨
    ((storeUserBadge n u s st).2.userBadges
        = st.userBadges ++ [{ username := pynorm u, badgeSlug := s, earnedAt := n }] ∧
      (st.userBadges.any
        (fun e => pynorm e.username == pynorm u && e.badgeSlug == s)) = false) := by
  unfold storeUserBadge
  dsimp only
  by_cases h1 : (!pyTruthy (pynorm u)) = true
  · rw [if_pos h1]
    exact Or.inl rfl
  · rw [if_neg h1]
    cases hc : catalogFind (ensureDefaultBadges st.badges) s with
    | none => exact Or.inl rfl
    | some b2 =>
      dsimp only
      by_cases h2 : (st.userBadges.any
          (fun e => pynorm e.username == pynorm u && e.badgeSlug == s)) = true
      · rw [if_pos h2]
        exact Or.inl rfl
      · rw [if_neg h2]
        exact Or.inr ⟨rfl, Bool.eq_false_iff.mpr h2⟩

theorem storeUserBadge_mono (n u s : String) (st : BadgeStore)
    (e : UserBadgeRec) (he : e ∈ st.userBadges) :
    e ∈ (storeUserBadge n u s st).2.userBadges := by
  rcases storeUserBadge_userBadges n u s st with h | ⟨h, -⟩ <;> rw [h]
  · exact he
  · exact List.mem_append_left _ he

theorem storeUserBadge_amop (n u s : String) (st : BadgeStore)
    (h : atMostOnePerPair st.userBadges) :
    atMostOnePerPair (storeUserBadge n u s st).2.userBadges := by
  rcases storeUserBadge_userBadges n u s st with hh | ⟨hh, hdup⟩ <;> rw [hh]
  · exact h
  · unfold atMostOnePerPair at h ⊢
    rw [List.pairwise_append]
    refine ⟨h, List.pairwise_singleton _ _, ?_⟩
    intro e he e' he' hp
    rw [List.mem_singleton] at he'
    subst he'
    obtain ⟨hp1, hp2⟩ := hp
    dsimp only at hp1 hp2
    rw [pynorm_idem] at hp1
    have hany : (st.userBadges.any
        (fun x => pynorm x.username == pynorm u && x.badgeSlug == s)) = true :=
      List.any_eq_true.mpr ⟨e, he, by simp [hp1, hp2]⟩
    simp [hany] at hdup

theorem storeUserBadge_noop (n u s : String) (st : BadgeStore)
    (hens : ensureDefaultBadges st.badges = st.badges)
    (h : catalogFind st.badges s = none ∨
      (st.userBadges.any
        (fun e => pynorm e.username == pynorm u && e.badgeSlug == s)) = true) :
    storeUserBadge n u s st = (none, st) := by
  unfold storeUserBadge
  dsimp only
  rw [hens]
  by_cases h1 : (!pyTruthy (pynorm u)) = true
  · rw [if_pos h1]
  · rw [if_neg h1]
    rcases h with hc | hdup
    · rw [hc]
    · cases hcc : catalogFind st.badges s with
      | none => rfl
      | some b =>
        dsimp only
        rw [if_pos hdup]

theorem storeUserBadge_pair (n u s : String) (st : BadgeStore)
    (hu : (!pyTruthy (pynorm u)) = false)
    (hc : (catalogFind (ensureDefaultBadges st.badges) s).isSome = true) :
    ∃ e ∈ (storeUserBadge n u s st).2.userBadges,
      pynorm e.username = pynorm u ∧ e.badgeSlug = s := by
  unfold storeUserBadge
  dsimp only
  rw [if_neg (by simp [hu])]
  cases hcc : catalogFind (ensureDefaultBadges st.badges) s with
  | none =>
    rw [hcc] at hc
    simp at hc
  | some b =>
    dsimp only
    by_cases hdup : (st.userBadges.any
        (fun e => pynorm e.username == pynorm u && e.badgeSlug == s)) = true
    · rw [if_pos hdup]
      obtain ⟨e, he, hp⟩ := List.any_eq_true.mp hdup
      rw [Bool.and_eq_true, beq_iff_eq, beq_iff_eq] at hp
      exact ⟨e, he, hp.1, hp.2⟩
    · rw [if_neg hdup]
      refine ⟨{ username := pynorm u, badgeSlug := s, earnedAt := n },
        List.mem_append_right _ (List.mem_singleton.mpr rfl), ?_, rfl⟩
      exact pynorm_idem u

theorem awardStep_snd (n u s : String) (p : List BadgeRec × BadgeStore) :
    (awardStep n u p s).2 = (storeUserBadge n u s p.2).2 := by
  unfold awardStep
  cases hst : storeUserBadge n u s p.2 with
  | mk o st1 => cases o <;> rfl

theorem foldl_awardStep_noop (n u : String) :
    ∀ (slugs : List String) (acc : List BadgeRec) (st0 : BadgeStore),
      (∀ s ∈ slugs, storeUserBadge n u s st0 = (none, st0)) →
      slugs.foldl (awardStep n u) (acc, st0) = (acc, st0) := by
  intro slugs
  induction slugs with
  | nil => intro acc st0 _; rfl
  | cons s rest ih =>
    intro acc st0 h
    rw [List.foldl_cons]
    have hstep : awardStep n u (acc, st0) s = (acc, st0) := by
      unfold awardStep
      dsimp only
      rw [h s (List.mem_cons_self s rest)]
    rw [hstep]
    exact ih acc st0 (fun s' hs' => h s' (List.mem_cons_of_mem s hs'))

theorem awardFold_invariants (n u : String) :
    ∀ (slugs : List String) (acc : List BadgeRec) (st0 : BadgeStore),
      ensureDefaultBadges st0.badges = st0.badges →
      (slugs.foldl (awardStep n u) (acc, st0)).2.badges = st0.badges ∧
      (∀ e ∈ st0.userBadges, e ∈ (slugs.foldl (awardStep n u) (acc, st0)).2.userBadges) ∧
      (atMostOnePerPair st0.userBadges →
        atMostOnePerPair (slugs.foldl (awardStep n u) (acc, st0)).2.userBadges) := by
  intro slugs
  induction slugs with
  | nil => intro acc st0 _; exact ⟨rfl, fun e he => he, fun hh => hh⟩
  | cons s rest ih =>
    intro acc st0 h
    rw [List.foldl_cons]
    cases ha : awardStep n u (acc, st0) s with
    | mk x1 st1 =>
      have hsnd := awardStep_snd n u s (acc, st0)
      rw [ha] at hsnd
      dsimp only at hsnd
      have hb1 : st1.badges = st0.badges := by
        rw [hsnd, storeUserBadge_badges, h]
      have hens1 : ensureDefaultBadges st1.badges = st1.badges := by
        rw [hb1, h]
      obtain ⟨ihb, ihm, iha⟩ := ih x1 st1 hens1
      refine ⟨by rw [ihb, hb1], ?_, ?_⟩
      · intro e he
        refine ihm e ?_
        rw [hsnd]
        exact storeUserBadge_mono n u s st0 e he
      · intro hh
        refine iha ?_
        rw [hsnd]
        exact storeUserBadge_amop n u s st0 hh

theorem awardFold_pair (n u : String) :
    ∀ (slugs : List String) (acc : List BadgeRec) (st0 : BadgeStore) (s : String),
      ensureDefaultBadges st0.badges = st0.badges →
      (!pyTruthy (pynorm u)) = false →
      s ∈ slugs →
      (catalogFind st0.badges s).isSome = true →
      ∃ e ∈ (slugs.foldl (awardStep n u) (acc, st0)).2.userBadges,
        pynorm e.username = pynorm u ∧ e.badgeSlug = s := by
  intro slugs
  induction slugs with
  | nil => intro _ _ _ _ _ hs _; cases hs
  | cons s' rest ih =>
    intro acc st0 s hens hu hs hc
    rw [List.foldl_cons]
    cases ha : awardStep n u (acc, st0) s' with
    | mk x1 st1 =>
      have hsnd := awardStep_snd n u s' (acc, st0)
      rw [ha] at hsnd
      dsimp only at hsnd
      have hb1 : st1.badges = st0.badges := by
        rw [hsnd, storeUserBadge_badges, hens]
      have hens1 : ensureDefaultBadges st1.badges = st1.badges := by
        rw [hb1, hens]
      rcases List.mem_cons.mp hs with heq | hrest
      · subst heq
        obtain ⟨e, he, hp⟩ := storeUserBadge_pair n u s st0 hu (by rw [hens]; exact hc)
        rw [← hsnd] at he
        obtain ⟨-, hmono, -⟩ := awardFold_invariants n u rest x1 st1 hens1
        exact ⟨e, hmono e he, hp⟩
      · exact ih x1 st1 s hens1 hu hrest (by rw [hb1]; exact hc)

theorem earnedSlugsOf_mono (username : String) (st st1 : BadgeStore)
    (hb : ensureDefaultBadges st1.badges = ensureDefaultBadges st.badges)
    (hub : ∀ e ∈ st.userBadges, e ∈ st1.userBadges) :
    ∀ s ∈ earnedSlugsOf username st, s ∈ earnedSlugsOf username st1 := by
  intro s hs
  unfold earnedSlugsOf at hs ⊢
  dsimp only at hs ⊢
  by_cases h1 : (!pyTruthy (pynorm username)) = true
  · rw [if_pos h1] at hs
    cases hs
  · rw [if_neg h1] at hs ⊢
    rw [List.mem_filterMap] at hs ⊢
    obtain ⟨e, hef, hemap⟩ := hs
    rw [List.mem_filter] at hef
    refine ⟨e, List.mem_filter.mpr ⟨hub e hef.1, hef.2⟩, ?_⟩
    rw [hb]
    exact hemap

theorem awardBadgesForUser_eq (n : String) (today : MDate) (username : String)
    (tasks : List TaskRec) (st : BadgeStore)
    (hens : ensureDefaultBadges st.badges = st.badges) :
    awardBadgesForUser n today username tasks st
      = if (!pyTruthy (pynorm username)) = true then ([], st)
        else (awardTargets today (pynorm username) tasks st).foldl
          (awardStep n (pynorm username)) ([], st) := by
  unfold awardBadgesForUser
  dsimp only
  have h : ({ st with badges := ensureDefaultBadges st.badges } : BadgeStore) = st := by
    rw [hens]
  rw [h]

theorem award_badges_field (n : String) (today : MDate) (username : String)
    (tasks : List TaskRec) (st : BadgeStore) :
    (awardBadgesForUser n today username tasks st).2.badges
      = ensureDefaultBadges st.badges := by
  unfold awardBadgesForUser
  dsimp only
  by_cases h1 : (!pyTruthy (pynorm username)) = true
  · rw [if_pos h1]
  · rw [if_neg h1]
    have hens : ensureDefaultBadges
        ({ st with badges := ensureDefaultBadges st.badges } : BadgeStore).badges
        = ({ st with badges := ensureDefaultBadges st.badges } : BadgeStore).badges :=
      ensureDefaultBadges_idem st.badges
    obtain ⟨hb, -, -⟩ := awardFold_invariants n (pynorm username)
      (awardTargets today (pynorm username) tasks
        { st with badges := ensureDefaultBadges st.badges })
      [] { st with badges := ensureDefaultBadges st.badges } hens
    rw [hb]

theorem award_mono (n : String) (today : MDate) (username : String)
    (tasks : List TaskRec) (st : BadgeStore) (e : UserBadgeRec)
    (he : e ∈ st.userBadges) :
    e ∈ (awardBadgesForUser n today username tasks st).2.userBadges := by
  unfold awardBadgesForUser
  dsimp only
  by_cases h1 : (!pyTruthy (pynorm username)) = true
  · rw [if_pos h1]
    exact he
  · rw [if_neg h1]
    have hens : ensureDefaultBadges
        ({ st with badges := ensureDefaultBadges st.badges } : BadgeStore).badges
        = ({ st with badges := ensureDefaultBadges st.badges } : BadgeStore).badges :=
      ensureDefaultBadges_idem st.badges
    obtain ⟨-, hm, -⟩ := awardFold_invariants n (pynorm username)
      (awardTargets today (pynorm username) tasks
        { st with badges := ensureDefaultBadges st.badges })
      [] { st with badges := ensureDefaultBadges st.badges } hens
    exact hm e he

theorem award_amop (n : String) (today : MDate) (username : String)
    (tasks : List TaskRec) (st : BadgeStore)
    (h : atMostOnePerPair st.userBadges) :
    atMostOnePerPair (awardBadgesForUser n today username tasks st).2.userBadges := by
  unfold awardBadgesForUser
  dsimp only
  by_cases h1 : (!pyTruthy (pynorm username)) = true
  · rw [if_pos h1]
    exact h
  · rw [if_neg h1]
    have hens : ensureDefaultBadges
        ({ st with badges := ensureDefaultBadges st.badges } : BadgeStore).badges
        = ({ st with badges := ensureDefaultBadges st.badges } : BadgeStore).badges :=
      ensureDefaultBadges_idem st.badges
    obtain ⟨-, -, ha⟩ := awardFold_invariants n (pynorm username)
      (awardTargets today (pynorm username) tasks
        { st with badges := ensureDefaultBadges st.badges })
      [] { st with badges := ensureDefaultBadges st.badges } hens
    exact ha h

theorem awardTargets_mem_iff (today : MDate) (uname : String)
    (tasks : List TaskRec) (st : BadgeStore) (s : String) :
    s ∈ awardTargets today uname tasks st ↔
      s ∉ earnedSlugsOf uname st ∧
      ((s = "first_step" ∧ 1 ≤ (userCompletionStats today uname tasks).completedCount) ∨
       (s = "task_master" ∧ 100 ≤ (userCompletionStats today uname tasks).completedCount) ∨
       (s = "weekly_warrior" ∧ 7 ≤ (userCompletionStats today uname tasks).longestStreak)) := by
  unfold awardTargets
  dsimp only
  simp only [List.mem_append]
  constructor
  · intro h
    rcases h with (h | h) | h
    · by_cases hc : "first_step" ∉ earnedSlugsOf uname st
          ∧ 1 ≤ (userCompletionStats today uname tasks).completedCount
      · rw [if_pos hc, List.mem_singleton] at h
        subst h
        exact ⟨hc.1, Or.inl ⟨rfl, hc.2⟩⟩
      · rw [if_neg hc] at h
        cases h
    · by_cases hc : "task_master" ∉ earnedSlugsOf uname st
          ∧ 100 ≤ (userCompletionStats today uname tasks).completedCount
      · rw [if_pos hc, List.mem_singleton] at h
        subst h
        exact ⟨hc.1, Or.inr (Or.inl ⟨rfl, hc.2⟩)⟩
      · rw [if_neg hc] at h
        cases h
    · by_cases hc : "weekly_warrior" ∉ earnedSlugsOf uname st
          ∧ 7 ≤ (userCompletionStats today uname tasks).longestStreak
      · rw [if_pos hc, List.mem_singleton] at h
        subst h
        exact ⟨hc.1, Or.inr (Or.inr ⟨rfl, hc.2⟩)⟩
      · rw [if_neg hc] at h
        cases h
  · rintro ⟨hne, (⟨rfl, hth⟩ | ⟨rfl, hth⟩ | ⟨rfl, hth⟩)⟩
    · refine Or.inl (Or.inl ?_)
      rw [if_pos ⟨hne, hth⟩]
      exact List.mem_singleton.mpr rfl
    · refine Or.inl (Or.inr ?_)
      rw [if_pos ⟨hne, hth⟩]
      exact List.mem_singleton.mpr rfl
    · refine Or.inr ?_
      rw [if_pos ⟨hne, hth⟩]
      exact List.mem_singleton.mpr rfl

theorem awardBadgesForUser_run (n : String) (today : MDate) (username : String)
    (tasks : List TaskRec) (st : BadgeStore)
    (hT : ¬ (!pyTruthy (pynorm username)) = true) :
    awardBadgesForUser n today username tasks st
      = (awardTargets today (pynorm username) tasks
          { st with badges := ensureDefaultBadges st.badges }).foldl
        (awardStep n (pynorm username))
        ([], { st with badges := ensureDefaultBadges st.badges }) := by
  unfold awardBadgesForUser
  dsimp only
  rw [if_neg hT]

/-- C6: `award_badges_for_user` is idempotent — re-running it with the same
task data on the store it produced awards nothing and returns that store
unchanged — and it preserves the at-most-one-link-per-(username, badge slug)
invariant that the flat-file duplicate scan of `store_user_badge` enforces. -/
theorem c6_award_badges_idempotent (n1 n2 : String) (today : MDate)
    (username : String) (tasks : List TaskRec) (st : BadgeStore) :
    awardBadgesForUser n2 today username tasks
        (awardBadgesForUser n1 today username tasks st).2
      = ([], (awardBadgesForUser n1 today username tasks st).2) ∧
    (atMostOnePerPair st.userBadges →
      atMostOnePerPair (awardBadgesForUser n1 today username tasks st).2.userBadges) := by
  refine ⟨?_, award_amop n1 today username tasks st⟩
  have hens1 : ensureDefaultBadges (awardBadgesForUser n1 today username tasks st).2.badges
      = (awardBadgesForUser n1 today username tasks st).2.badges := by
    rw [award_badges_field n1 today username tasks st]
    exact ensureDefaultBadges_idem st.badges
  rw [awardBadgesForUser_eq n2 today username tasks _ hens1]
  by_cases hT : (!pyTruthy (pynorm username)) = true
  · rw [if_pos hT]
  · rw [if_neg hT]
    apply foldl_awardStep_noop
    intro s hs
    refine storeUserBadge_noop n2 (pynorm username) s _ hens1 ?_
    cases hcf : catalogFind (awardBadgesForUser n1 today username tasks st).2.badges s with
    | none => exact Or.inl rfl
    | some b =>
      refine Or.inr ?_
      have h1 := awardBadgesForUser_run n1 today username tasks st hT
      have hs2 := (awardTargets_mem_iff today (pynorm username) tasks
        (awardBadgesForUser n1 today username tasks st).2 s).mp hs
      have hbb : ensureDefaultBadges
          (awardBadgesForUser n1 today username tasks st).2.badges
          = ensureDefaultBadges
            ({ st with badges := ensureDefaultBadges st.badges } : BadgeStore).badges := by
        rw [award_badges_field n1 today username tasks st]
      have hsub : ∀ x ∈ earnedSlugsOf (pynorm username)
          { st with badges := ensureDefaultBadges st.badges },
          x ∈ earnedSlugsOf (pynorm username)
            (awardBadgesForUser n1 today username tasks st).2 :=
        earnedSlugsOf_mono (pynorm username)
          { st with badges := ensureDefaultBadges st.badges }
          (awardBadgesForUser n1 today username tasks st).2
          hbb
          (fun e he => award_mono n1 today username tasks st e he)
      have hsE1 : s ∉ earnedSlugsOf (pynorm username)
          { st with badges := ensureDefaultBadges st.badges } :=
        fun hmem => hs2.1 (hsub s hmem)
      have hsT1 : s ∈ awardTargets today (pynorm username) tasks
          { st with badges := ensureDefaultBadges st.badges } :=
        (awardTargets_mem_iff today (pynorm username) tasks
          { st with badges := ensureDefaultBadges st.badges } s).mpr ⟨hsE1, hs2.2⟩
      have hensp : ensureDefaultBadges
          ({ st with badges := ensureDefaultBadges st.badges } : BadgeStore).badges
          = ({ st with badges := ensureDefaultBadges st.badges } : BadgeStore).badges :=
        ensureDefaultBadges_idem st.badges
      have hT' : (!pyTruthy (pynorm (pynorm username))) = false := by
        rw [pynorm_idem]
        exact Bool.eq_false_iff.mpr hT
      have hcsome : (catalogFind (ensureDefaultBadges st.badges) s).isSome = true := by
        have hx : catalogFind (ensureDefaultBadges st.badges) s = some b := by
          rw [← award_badges_field n1 today username tasks st]
          exact hcf
        rw [hx]
        rfl
      obtain ⟨e, he, hp1, hp2⟩ := awardFold_pair n1 (pynorm username)
        (awardTargets today (pynorm username) tasks
          { st with badges := ensureDefaultBadges st.badges })
        [] { st with badges := ensureDefaultBadges st.badges } s hensp hT' hsT1 hcsome
      rw [← h1] at he
      refine List.any_eq_true.mpr ⟨e, he, ?_⟩
      simp only [Bool.and_eq_true, beq_iff_eq]
      exact ⟨hp1, hp2⟩

theorem c6_award_badges_idempotent_witness :
    atMostOnePerPair (BadgeStore.mk [] []).userBadges ∧
    (awardBadgesForUser "2024-01-06T08:00:00" ⟨2024, 1, 5⟩ "Alice" c5tasks
        (awardBadgesForUser "2024-01-05T08:00:00" ⟨2024, 1, 5⟩ "Alice" c5tasks
          (BadgeStore.mk [] [])).2
      = ([], (awardBadgesForUser "2024-01-05T08:00:00" ⟨2024, 1, 5⟩ "Alice" c5tasks
          (BadgeStore.mk [] [])).2)) ∧
    atMostOnePerPair (awardBadgesForUser "2024-01-05T08:00:00" ⟨2024, 1, 5⟩ "Alice"
        c5tasks (BadgeStore.mk [] [])).2.userBadges := by
  refine ⟨by decide,
    (c6_award_badges_idempotent "2024-01-05T08:00:00" "2024-01-06T08:00:00"
      ⟨2024, 1, 5⟩ "Alice" c5tasks (BadgeStore.mk [] [])).1,
    (c6_award_badges_idempotent "2024-01-05T08:00:00" "2024-01-06T08:00:00"
      ⟨2024, 1, 5⟩ "Alice" c5tasks (BadgeStore.mk [] [])).2 (by decide)⟩

/-! ### Notification preference resolution (C8) and store failure
semantics (C9) -/

/-- C8 (counterexample): a stored `daily_hour = 37` resolves to the clamped
bound 23 — not to the default 7 — in `load_notification_settings_for`, and
the collectors loader returns 37 entirely unclamped. -/
theorem c8_daily_hour_clamp_cex :
    loadSettingsDailyHour (some (PrefVal.intV 37)) = 23 ∧ (23 : Int) ≠ 7 ∧
    collectorsDailyHour (some (PrefVal.intV 37)) = some 37 ∧
    ¬((37 : Int) ≤ 23) := by
  refine ⟨rfl, by decide, rfl, by decide⟩

/-- C8 (amended): `load_notification_settings_for` clamps a parseable stored
`daily_hour` into [0, 23] (so 37 resolves to 23, not to the default) and uses
the default 7 only when `int(...)` raises; its resolved value is therefore
always in [0, 23].  The collectors' `load_notification_preferences` applies
`int(...)` with no clamping, so a stored 37 stays 37 there. -/
theorem c8_daily_hour_resolution (stored : Option PrefVal) :
    0 ≤ loadSettingsDailyHour stored ∧ loadSettingsDailyHour stored ≤ 23 ∧
    (∀ n : Int, pyIntOf (stored.getD (PrefVal.intV 7)) = some n →
      loadSettingsDailyHour stored = max 0 (min 23 n)) ∧
    (pyIntOf (stored.getD (PrefVal.intV 7)) = none →
      loadSettingsDailyHour stored = 7) ∧
    (∀ v, stored = some v → collectorsDailyHour stored = pyIntOf v) := by
  unfold loadSettingsDailyHour collectorsDailyHour
  cases hp : pyIntOf (stored.getD (PrefVal.intV 7)) with
  | none =>
    dsimp only
    refine ⟨by decide, by decide, ?_, ?_, ?_⟩
    · intro n h
      cases h
    · intro _
      rfl
    · intro v hv
      subst hv
      exact hp.symm
  | some n =>
    dsimp only
    refine ⟨le_max_left 0 _, by omega, ?_, ?_, ?_⟩
    · intro m h
      injection h with h
      rw [h]
    · intro h
      cases h
    · intro v hv
      subst hv
      exact hp.symm

theorem c8_daily_hour_resolution_witness :
    loadSettingsDailyHour (some (PrefVal.intV 37)) = max 0 (min 23 37) ∧
    collectorsDailyHour (some (PrefVal.intV 37)) = pyIntOf (PrefVal.intV 37) :=
  ⟨(c8_daily_hour_resolution (some (PrefVal.intV 37))).2.2.1 37 rfl,
   (c8_daily_hour_resolution (some (PrefVal.intV 37))).2.2.2.2 (PrefVal.intV 37) rfl⟩

/-- C9 (counterexample): a malformed (undecodable) store returns the default
but does not persist it — the source stays malformed — and an unreadable
store (`OSError`) is caught and returns the default instead of propagating
as fatal. -/
theorem c9_load_failure_cex :
    loadJsonModel (StoreSource.malformed : StoreSource (List TaskRec)) [] true
      = LoadOutcome.val [] StoreSource.malformed ∧
    (StoreSource.malformed : StoreSource (List TaskRec)) ≠ StoreSource.data [] ∧
    loadJsonModel (StoreSource.unreadable : StoreSource (List TaskRec)) [] true
      ≠ LoadOutcome.fatal ∧
    loadJsonModel (StoreSource.unreadable : StoreSource (List TaskRec)) [] false
      ≠ LoadOutcome.fatal := by
  refine ⟨rfl, by decide, by decide, by decide⟩

/-- C9 (amended): `load_json` returns decoded content as-is; on a missing
file it persists and returns the default when the nested `save_json_atomic`
succeeds; the only fatal path is a failure of that nested save on the
missing-file branch (`FileNotFoundError` handler); a malformed or unreadable
store returns the default without persisting anything. -/
theorem c9_load_failure_semantics {α : Type} (src : StoreSource α) (default : α)
    (saveOk : Bool) :
    (∀ d, src = StoreSource.data d →
      loadJsonModel src default saveOk = LoadOutcome.val d src) ∧
    (src = StoreSource.missing → saveOk = true →
      loadJsonModel src default saveOk
        = LoadOutcome.val default (StoreSource.data default)) ∧
    (loadJsonModel src default saveOk = LoadOutcome.fatal ↔
      src = StoreSource.missing ∧ saveOk = false) ∧
    ((src = StoreSource.malformed ∨ src = StoreSource.unreadable) →
      loadJsonModel src default saveOk = LoadOutcome.val default src) := by
  unfold loadJsonModel
  cases src with
  | data d =>
    refine ⟨?_, ?_, ?_, ?_⟩
    · intro d2 h
      injection h with h
      rw [h]
    · intro h
      cases h
    · constructor
      · intro h
        exact LoadOutcome.noConfusion h
      · rintro ⟨h, -⟩
        cases h
    · rintro (h | h) <;> cases h
  | missing =>
    cases saveOk with
    | true =>
      refine ⟨?_, ?_, ?_, ?_⟩
      · intro d2 h
        cases h
      · intro _ _
        rfl
      · constructor
        · intro h
          exact LoadOutcome.noConfusion h
        · rintro ⟨-, h⟩
          cases h
      · rintro (h | h) <;> cases h
    | false =>
      refine ⟨?_, ?_, ?_, ?_⟩
      · intro d2 h
        cases h
      · intro _ h
        cases h
      · exact ⟨fun _ => ⟨rfl, rfl⟩, fun _ => rfl⟩
      · rintro (h | h) <;> cases h
  | malformed =>
    refine ⟨?_, ?_, ?_, ?_⟩
    · intro d2 h
      cases h
    · intro h
      cases h
    · constructor
      · intro h
        exact LoadOutcome.noConfusion h
      · rintro ⟨h, -⟩
        cases h
    · intro _
      rfl
  | unreadable =>
    refine ⟨?_, ?_, ?_, ?_⟩
    · intro d2 h
      cases h
    · intro h
      cases h
    · constructor
      · intro h
        exact LoadOutcome.noConfusion h
      · rintro ⟨h, -⟩
        cases h
    · intro _
      rfl

theorem c9_load_failure_semantics_witness :
    loadJsonModel (StoreSource.missing : StoreSource (List TaskRec)) [c1sample] true
      = LoadOutcome.val [c1sample] (StoreSource.data [c1sample]) ∧
    loadJsonModel (StoreSource.malformed : StoreSource (List TaskRec)) [c1sample] true
      = LoadOutcome.val [c1sample] StoreSource.malformed :=
  ⟨(c9_load_failure_semantics StoreSource.missing [c1sample] true).2.1 rfl rfl,
   (c9_load_failure_semantics StoreSource.malformed [c1sample] true).2.2.2 (Or.inl rfl)⟩

theorem daysBeforeYear_le (y1 y2 : Nat) (h1 : 1 ≤ y1) (h : y1 ≤ y2) :
    daysBeforeYear y1 ≤ daysBeforeYear y2 := by
  induction y2, h using Nat.le_induction with
  | base => exact le_refl _
  | succ n hn ih =>
    have hstep := daysBeforeYear_succ n (le_trans h1 hn)
    have hpos : 365 ≤ daysInYear n := by
      unfold daysInYear
      split_ifs <;> omega
    omega

theorem daysBeforeMonth_le (y m1 m2 : Nat) (h1 : 1 ≤ m1) (h : m1 ≤ m2) :
    daysBeforeMonth y m1 ≤ daysBeforeMonth y m2 := by
  induction m2, h using Nat.le_induction with
  | base => exact le_refl _
  | succ n hn ih =>
    have hstep := daysBeforeMonth_succ y n (le_trans h1 hn)
    omega

theorem dToNum_year_bound {d : MDate} (h : ValidDate d) :
    dToNum d ≤ daysBeforeYear (d.year + 1) := by
  obtain ⟨y, m, dd⟩ := d
  unfold ValidDate at h
  dsimp only at h
  obtain ⟨hy, hm1, hm2, hd1, hd2⟩ := h
  unfold dToNum
  dsimp only
  have h13 : daysBeforeMonth y (m + 1) ≤ daysBeforeMonth y 13 :=
    daysBeforeMonth_le y (m + 1) 13 (by omega) (by omega)
  have hsucc := daysBeforeMonth_succ y m hm1
  have hy13 := daysBeforeMonth_13 y
  have hys := daysBeforeYear_succ y hy
  omega

theorem dToNum_lt_of_dateLt {d1 d2 : MDate} (h1 : ValidDate d1) (h2 : ValidDate d2)
    (h : dateLt d1 d2) : dToNum d1 < dToNum d2 := by
  obtain ⟨y1, m1, dd1⟩ := d1
  obtain ⟨y2, m2, dd2⟩ := d2
  unfold ValidDate at h1 h2
  unfold dateLt at h
  dsimp only at h1 h2 h
  obtain ⟨ha1, hb1, hc1, hd1, he1⟩ := h1
  obtain ⟨ha2, hb2, hc2, hd2, he2⟩ := h2
  unfold dToNum
  dsimp only
  rcases h with hy | ⟨hyeq, hm | ⟨hmeq, hd⟩⟩
  · have hbound : daysBeforeYear y1 + daysBeforeMonth y1 m1 + dd1
        ≤ daysBeforeYear (y1 + 1) :=
      @dToNum_year_bound ⟨y1, m1, dd1⟩ ⟨ha1, hb1, hc1, hd1, he1⟩
    have hmono : daysBeforeYear (y1 + 1) ≤ daysBeforeYear y2 :=
      daysBeforeYear_le (y1 + 1) y2 (by omega) (by omega)
    omega
  · subst hyeq
    have hsucc := daysBeforeMonth_succ y1 m1 hb1
    have hmm : daysBeforeMonth y1 (m1 + 1) ≤ daysBeforeMonth y1 m2 :=
      daysBeforeMonth_le y1 (m1 + 1) m2 (by omega) (by omega)
    omega
  · subst hyeq
    subst hmeq
    omega
